import Mathlib

/-!
Verification of the cloud-document-converter repository.

Part 1: the Chrome extension background script (`sanitizeFilename` and the
download-message listener in `apps/chrome-extension/src/background.ts`) and
the wiki URL detector (`isWikiPage` in the wiki-detector module).

Part 2: the Block tree → Markdown AST Transformer.  The transformer source
(`packages/lark/src/docx.ts`) is not part of the provided sources, so it is
modelled from the specification (see the doc comments marked
"Modelled from the spec").

Strings are embedded as `List Char` (one element per UTF-16 code unit for the
character ranges involved, which all lie in the BMP).
-/

namespace Background

/-- The character class of the first `replace` in `sanitizeFilename`
(`/[<>:"/\\|?*]/g` in `background.ts`). -/
def invalidFilenameChars : List Char := ['<', '>', ':', '"', '/', '\\', '|', '?', '*']

/-- The character class of the second `replace` in `sanitizeFilename`
(`/[\x00-\x1f\x80-\x9f]/g` in `background.ts`). -/
def isControlChar (c : Char) : Bool :=
  c.toNat ≤ 0x1f || (0x80 ≤ c.toNat && c.toNat ≤ 0x9f)

/-- `sanitizeFilename` from `background.ts`: replace the invalid characters by
a dash, remove the control characters, remove the leading dots
(`/^\.+/` replaced by the empty string), then truncate to 200 units
(`substring(0, 200)`). -/
def sanitizeFilename (filename : List Char) : List Char :=
  ((((filename.map (fun c => if c ∈ invalidFilenameChars then '-' else c)).filter
      (fun c => !isControlChar c)).dropWhile (fun c => c == '.')).take 200)

/-- The filename that the `chrome.runtime.onMessage` listener passes to
`chrome.downloads.download` for an `AUTOMATION_DOWNLOAD` message: it is the
sanitized message filename (`background.ts`, lines 104–113). -/
def downloadFilename (messageFilename : List Char) : List Char :=
  sanitizeFilename messageFilename

lemma head?_dropWhile_not {p : Char → Bool} :
    ∀ (l : List Char) (a : Char), (l.dropWhile p).head? = some a → p a = false := by
  intro l
  induction l with
  | nil => intro a h; simp [List.dropWhile] at h
  | cons x xs ih =>
    intro a h
    by_cases hx : p x
    · rw [List.dropWhile_cons_of_pos hx] at h
      exact ih a h
    · rw [List.dropWhile_cons_of_neg hx] at h
      simp at h
      rw [← h]
      exact Bool.eq_false_iff.mpr hx

/-- Claim C9: for every input string, `sanitizeFilename` returns a string of
length at most 200, containing none of the characters in the invalid class,
containing no control character (U+0000–U+001F, U+0080–U+009F), and not
beginning with a dot; in particular the download filename handed to
`chrome.downloads.download` contains no path separator. -/
theorem c9_sanitizeFilename (s : List Char) :
    (sanitizeFilename s).length ≤ 200 ∧
    (∀ c ∈ sanitizeFilename s, c ∉ invalidFilenameChars ∧ isControlChar c = false) ∧
    (sanitizeFilename s).head? ≠ some '.' ∧
    '/' ∉ downloadFilename s ∧ '\\' ∉ downloadFilename s := by
  have hmem : ∀ c ∈ sanitizeFilename s, c ∉ invalidFilenameChars ∧ isControlChar c = false := by
    intro c hc
    unfold sanitizeFilename at hc
    have hc1 : c ∈ ((s.map (fun c => if c ∈ invalidFilenameChars then '-' else c)).filter
        (fun c => !isControlChar c)).dropWhile (fun c => c == '.') :=
      (List.take_sublist _ _).mem hc
    have hc2 : c ∈ (s.map (fun c => if c ∈ invalidFilenameChars then '-' else c)).filter
        (fun c => !isControlChar c) :=
      (List.dropWhile_sublist _).mem hc1
    have hc3 := List.mem_filter.mp hc2
    constructor
    · obtain ⟨d, _, hd2⟩ := List.mem_map.mp hc3.1
      by_cases hdm : d ∈ invalidFilenameChars
      · simp [hdm] at hd2
        rw [← hd2]
        decide
      · simp [hdm] at hd2
        rw [← hd2]
        exact hdm
    · have h4 := hc3.2
      simp at h4
      exact h4
  refine ⟨?_, hmem, ?_, ?_, ?_⟩
  · unfold sanitizeFilename
    rw [List.length_take]
    exact Nat.min_le_left _ _
  · intro hhead
    unfold sanitizeFilename at hhead
    rw [List.head?_take] at hhead
    have : ((('.' == '.') : Bool) = false) := by
      apply head?_dropWhile_not (p := fun c => c == '.') _ '.'
      have h200 : (200 : Nat) ≠ 0 := by decide
      simp [h200] at hhead
      exact hhead
    simp at this
  · intro h
    have := (hmem '/' h).1
    simp [invalidFilenameChars] at this
  · intro h
    have := (hmem '\\' h).1
    simp [invalidFilenameChars] at this

end Background

namespace WikiDetector

/-- A parsed absolute URL, as produced by the browser's `new URL(...)`
constructor: only the components that `isWikiPage` reads.  URL parsing itself
is external to the module; an unparsable input corresponds to `none`
(the `catch` branch). -/
structure ParsedURL where
  pathname : List Char
  search : List Char

/-- Test of a regular expression consisting of a literal only, against any
position of the string (JavaScript `RegExp.test` semantics). -/
def infixPat (lit : List Char) (s : List Char) : Bool :=
  decide (lit <:+: s)

/-- Match, at the current position, a pattern of the form
`a` ++ `[^/]+` ++ `b`, where `b` begins with `'/'`: since the gap may not
contain `'/'` and the continuation starts with `'/'`, the gap is exactly the
maximal run of non-slash characters. -/
def gapSegment (a b : List Char) (s : List Char) : Bool :=
  a.isPrefixOf s &&
    (let t := s.drop a.length
     let mid := t.takeWhile (fun c => c != '/')
     !mid.isEmpty && b.isPrefixOf (t.drop mid.length))

/-- Test of a regular expression of the form `a[^/]+b` against any position
of the string. -/
def gapPat (a b : List Char) : List Char → Bool
  | [] => false
  | c :: rest => gapSegment a b (c :: rest) || gapPat a b rest

/-- First wiki pattern of the wiki-detector module, `/\/wiki\//`. -/
def wikiPat1 (s : List Char) : Bool := infixPat "/wiki/".toList s

/-- Second wiki pattern of the wiki-detector module, `/\/space\/[^/]+\/wiki\//`. -/
def wikiPat2 (s : List Char) : Bool := gapPat "/space/".toList "/wiki/".toList s

/-- `isWikiPage` (wiki-detector module, first definition): parse the URL; on
failure return `false`; otherwise test `pathname + search` against the fixed
wiki patterns.  The `console.log` calls of the source have no effect on the
returned value and are not modelled. -/
def isWikiPage (u : Option ParsedURL) : Bool :=
  match u with
  | none => false
  | some p => wikiPat1 (p.pathname ++ p.search) || wikiPat2 (p.pathname ++ p.search)

/-- The five document domains of the second pattern list of the module. -/
def wikiDomains : List (List Char) :=
  ["feishu.cn".toList, "feishu.net".toList, "larksuite.com".toList,
   "larkoffice.com".toList, "larkenterprise.com".toList]

/-- The second pattern list of the module: for each domain `d`, the patterns
`d/wiki` and `d/space/[^/]+/wiki` (no trailing slash). -/
def matchesDomainPatterns (s : List Char) : Bool :=
  wikiDomains.any (fun d =>
    infixPat (d ++ "/wiki".toList) s || gapPat (d ++ "/space/".toList) "/wiki".toList s)

/-- `isWikiPage` (wiki-detector module, second definition, with the
domain-qualified pattern list). -/
def isWikiPageDomains (u : Option ParsedURL) : Bool :=
  match u with
  | none => false
  | some p => matchesDomainPatterns (p.pathname ++ p.search)

/-- Claim C10: both `isWikiPage` definitions are total boolean functions;
an unparsable URL yields `false`; a parsable URL yields `true` exactly when
the parsed URL's pathname concatenated with its search string matches at
least one of the module's fixed wiki patterns. -/
theorem c10_isWikiPage :
    (∀ u, isWikiPage u = true ∨ isWikiPage u = false) ∧
    isWikiPage none = false ∧
    (∀ p : ParsedURL, isWikiPage (some p) = true ↔
      (wikiPat1 (p.pathname ++ p.search) = true ∨ wikiPat2 (p.pathname ++ p.search) = true)) ∧
    (∀ u, isWikiPageDomains u = true ∨ isWikiPageDomains u = false) ∧
    isWikiPageDomains none = false ∧
    (∀ p : ParsedURL, isWikiPageDomains (some p) = true ↔
      ∃ d ∈ wikiDomains, infixPat (d ++ "/wiki".toList) (p.pathname ++ p.search) = true ∨
        gapPat (d ++ "/space/".toList) "/wiki".toList (p.pathname ++ p.search) = true) := by
  refine ⟨?_, rfl, ?_, ?_, rfl, ?_⟩
  · intro u
    cases h : isWikiPage u
    · exact Or.inr rfl
    · exact Or.inl rfl
  · intro p
    simp [isWikiPage]
  · intro u
    cases h : isWikiPageDomains u
    · exact Or.inr rfl
    · exact Or.inl rfl
  · intro p
    simp [isWikiPageDomains, matchesDomainPatterns]

end WikiDetector

namespace Lark

/-- Modelled from the spec: the `BlockType` tag set of the Block Model
(spec §3); the transformer source `packages/lark/src/docx.ts` is not among
the provided sources.  The nine heading variants `HEADING1..HEADING9` are
represented by one constructor carrying the source level. -/
inductive BlockType where
  | PAGE
  | HEADING (level : Nat)
  | TEXT
  | CODE
  | QUOTE_CONTAINER
  | BULLET
  | ORDERED
  | TODO
  | TABLE
  | CELL
  | GRID
  | GRID_COLUMN
  | IMAGE
  | FILE
  | WHITEBOARD
  | DIAGRAM
  | IFRAME
  | ISV
  | DIVIDER
  | BITABLE
  | CHAT_CARD
  | MINDNOTE
  | SHEET
  | FALLBACK
deriving DecidableEq

/-- Modelled from the spec: an inline run, `text` plus a set of marks and an
optional link target (spec §3). -/
structure InlineRun where
  text : List Char := []
  bold : Bool := false
  italic : Bool := false
  strikethrough : Bool := false
  inlineCode : Bool := false
  highlight : Option (List Char) := none
  link : Option (List Char) := none
deriving DecidableEq

/-- Modelled from the spec: the Configuration record of named options
(spec §4.2). -/
structure Config where
  whiteboard : Bool := false
  diagram : Bool := false
  file : Bool := false
  highlight : Bool := false
  flatGrid : Bool := false

/-- Modelled from the spec: a Block (spec §3).  Every block has `id`, `type`
and `children` (ordered id references resolved through a document-wide
index); the variant payload fields are optional, so that a malformed block —
required fields for its tag missing — is representable.  The deferred asset
accessors `fetchSources`/`fetchBlob` are opaque capability handles of an
arbitrary type `α` which the transformer may thread through but cannot
invoke (spec §9). -/
structure Block (α : Type) where
  id : Nat
  type : BlockType
  children : List Nat := []
  runs : Option (List InlineRun) := none
  title : Option (List Char) := none
  codeText : Option (List Char) := none
  language : Option (List Char) := none
  rowsCount : Option Nat := none
  columnsCount : Option Nat := none
  name : Option (List Char) := none
  token : Option (List Char) := none
  url : Option (List Char) := none
  checked : Option Bool := none
  fetchSources : Option α := none
  fetchBlob : Option α := none

/-- Modelled from the spec: the document-wide block index through which the
children id references are resolved (spec §3). -/
abbrev Doc (α : Type) : Type := List (Block α)

/-- Look a block up by id in the document index. -/
def lookupDoc {α : Type} (doc : Doc α) (id : Nat) : Option (Block α) :=
  List.find? (fun b => b.id == id) doc

/-- Markdown AST inline node (phrasing content), with the mdast node kinds
named in spec §3. -/
inductive InlinePart where
  | text (value : List Char)
  | inlineCode (value : List Char)
  | strong (children : List InlinePart)
  | emphasis (children : List InlinePart)
  | delete (children : List InlinePart)
  | link (url : List Char) (children : List InlinePart)

/-- Markdown AST block node with the mdast node kinds named in spec §3,
extension data included: image and file nodes carry the deferred accessor
handles in their `data` payload. -/
inductive AstNode (α : Type) where
  | root (children : List (AstNode α))
  | heading (depth : Nat) (children : List InlinePart)
  | paragraph (children : List InlinePart)
  | code (lang : List Char) (value : List Char)
  | blockquote (children : List (AstNode α))
  | list (ordered : Bool) (children : List (AstNode α))
  | listItem (checked : Option Bool) (children : List (AstNode α))
  | table (children : List (AstNode α))
  | tableRow (children : List (AstNode α))
  | tableCell (children : List (AstNode α))
  | thematicBreak
  | image (name token : Option (List Char)) (fetchSources fetchBlob : Option α)
  | file (name token : Option (List Char)) (fetchSources fetchBlob : Option α)

/-- Modelled from the spec: a side-collection entry
`{ id, name, token, accessors }` appended for each IMAGE/FILE block in
traversal order (spec §4.3 step 8). -/
structure AssetRef (α : Type) where
  blockId : Nat
  name : Option (List Char)
  token : Option (List Char)
  fetchSources : Option α
  fetchBlob : Option α

/-- Modelled from the spec: the fatal error taxonomy (spec §7): the root
block is not a PAGE, or a cyclic child reference is detected during
traversal. -/
inductive InvariantViolation where
  | rootNotPage
  | cycleDetected (id : Nat)
deriving DecidableEq

/-- Render one inline run as a phrasing node, applying the marks in the fixed
canonical order of spec §4.3 step 9: code innermost, then the emphasis-class
marks, then the link outermost.  A highlight mark is preserved (as
emphasis-like markup) only when the `highlight` option is on; a stripped mark
is treated as fully absent (spec §9). -/
def renderRun (cfg : Config) (r : InlineRun) : InlinePart :=
  let base := if r.inlineCode then InlinePart.inlineCode r.text else InlinePart.text r.text
  let s1 := if r.strikethrough then InlinePart.delete [base] else base
  let s2 := if r.italic then InlinePart.emphasis [s1] else s1
  let s3 := if r.bold then InlinePart.strong [s2] else s2
  let s4 := if cfg.highlight && r.highlight.isSome then InlinePart.emphasis [s3] else s3
  match r.link with
  | some u => InlinePart.link u [s4]
  | none => s4

/-- Render a sequence of inline runs. -/
def renderRuns (cfg : Config) (rs : List InlineRun) : List InlinePart :=
  rs.map (renderRun cfg)

/-- Modelled from the spec: the table grid builder (spec §4.3 step 7 and §8):
the row/column shape is derived from the declared dimensions, each cell takes
the transformed content of the corresponding cell block, and a missing cell
is rendered as an empty cell. -/
def buildRows {α : Type} (rows cols : Nat) (entries : List (List (AstNode α))) :
    List (AstNode α) :=
  (List.range rows).map (fun i =>
    AstNode.tableRow ((List.range cols).map (fun j =>
      AstNode.tableCell (entries.getD (i * cols + j) []))))

/-- Result of one per-block dispatch step: the nodes contributed at the
block's position, plus the block's own image/file side-collection entries. -/
structure BuildOut (α : Type) where
  nodes : List (AstNode α)
  images : List (AssetRef α)
  files : List (AssetRef α)

/-- Modelled from the spec: the children a traversal descends into, per block
tag.  Only the container tags recurse; the unconditionally-unsupported tags
(BITABLE, CHAT_CARD, MINDNOTE, SHEET, FALLBACK) and the leaf tags never have
their children visited (spec §4.3 steps 2 and 4). -/
def recChildren {α : Type} (blk : Block α) : List Nat :=
  match blk.type with
  | .PAGE | .QUOTE_CONTAINER | .BULLET | .ORDERED | .TODO
  | .TABLE | .CELL | .GRID | .GRID_COLUMN => blk.children
  | _ => []

/-- Modelled from the spec: the per-tag handling rule (spec §4.3).  `entries`
is the list of transformed child results, one entry per child id, in order.
Unsupported tags produce no node; conditionally supported tags behave as
unsupported when their flag is off; GRID/GRID_COLUMN and CELL containers are
spliced (the target AST grammar of spec §3 has no grid-equivalent container,
so the splice fallback of spec §4.2 applies to both `flatGrid` settings);
heading levels above 6 degrade to a paragraph with the same inline
content. -/
def buildNode {α : Type} (cfg : Config) (blk : Block α)
    (entries : List (List (AstNode α))) : BuildOut α :=
  match blk.type with
  | .PAGE => ⟨[.root entries.flatten], [], []⟩
  | .HEADING level =>
      if level ≤ 6 then ⟨[.heading level (renderRuns cfg (blk.runs.getD []))], [], []⟩
      else ⟨[.paragraph (renderRuns cfg (blk.runs.getD []))], [], []⟩
  | .TEXT => ⟨[.paragraph (renderRuns cfg (blk.runs.getD []))], [], []⟩
  | .CODE => ⟨[.code (blk.language.getD []) (blk.codeText.getD [])], [], []⟩
  | .QUOTE_CONTAINER => ⟨[.blockquote entries.flatten], [], []⟩
  | .BULLET =>
      ⟨[.list false [.listItem none
        (.paragraph (renderRuns cfg (blk.runs.getD [])) :: entries.flatten)]], [], []⟩
  | .ORDERED =>
      ⟨[.list true [.listItem none
        (.paragraph (renderRuns cfg (blk.runs.getD [])) :: entries.flatten)]], [], []⟩
  | .TODO =>
      ⟨[.list false [.listItem (some (blk.checked.getD false))
        (.paragraph (renderRuns cfg (blk.runs.getD [])) :: entries.flatten)]], [], []⟩
  | .TABLE =>
      ⟨[.table (buildRows (blk.rowsCount.getD 0) (blk.columnsCount.getD 0) entries)], [], []⟩
  | .CELL => ⟨entries.flatten, [], []⟩
  | .GRID => ⟨entries.flatten, [], []⟩
  | .GRID_COLUMN => ⟨entries.flatten, [], []⟩
  | .IMAGE =>
      ⟨[.image blk.name blk.token blk.fetchSources blk.fetchBlob],
       [⟨blk.id, blk.name, blk.token, blk.fetchSources, blk.fetchBlob⟩], []⟩
  | .FILE =>
      if cfg.file then
        ⟨[.file blk.name blk.token blk.fetchSources blk.fetchBlob], [],
         [⟨blk.id, blk.name, blk.token, blk.fetchSources, blk.fetchBlob⟩]⟩
      else ⟨[], [], []⟩
  | .WHITEBOARD =>
      if cfg.whiteboard then ⟨[.paragraph [.text (blk.name.getD [])]], [], []⟩
      else ⟨[], [], []⟩
  | .DIAGRAM =>
      if cfg.diagram then ⟨[.paragraph [.text (blk.name.getD [])]], [], []⟩
      else ⟨[], [], []⟩
  | .IFRAME => ⟨[.paragraph [.link (blk.url.getD []) [.text (blk.url.getD [])]]], [], []⟩
  | .ISV => ⟨[.paragraph [.text (blk.name.getD [])]], [], []⟩
  | .DIVIDER => ⟨[.thematicBreak], [], []⟩
  | .BITABLE => ⟨[], [], []⟩
  | .CHAT_CARD => ⟨[], [], []⟩
  | .MINDNOTE => ⟨[], [], []⟩
  | .SHEET => ⟨[], [], []⟩
  | .FALLBACK => ⟨[], [], []⟩

/-- Does `a` contain no entry for `r`'s source block id? -/
def refAbsent {α : Type} (a : List (AssetRef α)) (r : AssetRef α) : Bool :=
  a.all (fun s => s.blockId != r.blockId)

/-- Modelled from the spec: concatenation of side collections, keeping at
most one entry per source block id — the first one in document order
(spec §3 invariants: "no duplicates for the same source block id"). -/
def mergeRefs {α : Type} (a b : List (AssetRef α)) : List (AssetRef α) :=
  a ++ b.filter (refAbsent a)

/-- The ids present in the document index. -/
def docIds {α : Type} (doc : Doc α) : List Nat :=
  List.map (fun b => b.id) doc

/-- Number of document ids not on the current ancestor path: the quantity
that shrinks when the traversal descends, bounding the visited-id cycle
guard (spec §7). -/
def remaining {α : Type} (doc : Doc α) (path : List Nat) : Nat :=
  ((docIds doc).filter (fun i => decide (i ∉ path))).length

lemma length_filter_mono {p q : Nat → Bool} (h : ∀ x, p x = true → q x = true) :
    ∀ l : List Nat, (l.filter p).length ≤ (l.filter q).length := by
  intro l
  induction l with
  | nil => simp
  | cons x t ih =>
    by_cases hx : p x
    · rw [List.filter_cons_of_pos hx, List.filter_cons_of_pos (h x hx)]
      simpa using ih
    · rw [List.filter_cons_of_neg (by simpa using hx)]
      by_cases hq : q x
      · rw [List.filter_cons_of_pos hq]
        exact Nat.le_succ_of_le ih
      · rw [List.filter_cons_of_neg (by simpa using hq)]
        exact ih

lemma length_filter_cons_lt {id : Nat} {path : List Nat} (hnot : id ∉ path) :
    ∀ l : List Nat, id ∈ l →
      (l.filter (fun i => decide (i ∉ (id :: path)))).length <
        (l.filter (fun i => decide (i ∉ path))).length := by
  intro l
  induction l with
  | nil => intro h; simp at h
  | cons y t ih =>
    intro hmem
    have himp : ∀ x : Nat, (fun i => decide (i ∉ (id :: path))) x = true →
        (fun i => decide (i ∉ path)) x = true := by
      intro x hx
      simp [List.mem_cons] at hx ⊢
      exact hx.2
    by_cases hy : y = id
    · subst hy
      rw [List.filter_cons_of_neg (by simp [List.mem_cons])]
      rw [List.filter_cons_of_pos (by simpa using hnot)]
      exact Nat.lt_succ_of_le (length_filter_mono himp t)
    · have hmem' : id ∈ t := by
        cases List.mem_cons.mp hmem with
        | inl h => exact absurd h.symm hy
        | inr h => exact h
      by_cases hc : y ∈ path
      · rw [List.filter_cons_of_neg (by simp [List.mem_cons, hc]),
          List.filter_cons_of_neg (by simpa using hc)]
        exact ih hmem'
      · rw [List.filter_cons_of_pos (by simp [List.mem_cons, hy, hc]),
          List.filter_cons_of_pos (by simpa using hc)]
        exact Nat.succ_lt_succ (ih hmem')

lemma mem_docIds_of_lookup {α : Type} {doc : Doc α} {id : Nat} {blk : Block α}
    (h : lookupDoc doc id = some blk) : id ∈ docIds doc := by
  unfold lookupDoc at h
  have hmem := List.mem_of_find?_eq_some h
  have hp := List.find?_some h
  have hid : blk.id = id := by simpa using hp
  unfold docIds
  exact hid ▸ List.mem_map_of_mem _ hmem

lemma remaining_lt {α : Type} {doc : Doc α} {path : List Nat} {id : Nat}
    (hmem : id ∈ docIds doc) (hnot : id ∉ path) :
    remaining doc (id :: path) < remaining doc path :=
  length_filter_cons_lt hnot (docIds doc) hmem

/-- Result of transforming a sequence of sibling blocks: per-id node entries
(one entry per id, in order), the accumulated image and file
side-collections, and the list of visited (looked-up) block ids in traversal
(depth-first, preorder) order. -/
structure Res (α : Type) where
  entries : List (List (AstNode α))
  images : List (AssetRef α)
  files : List (AssetRef α)
  visited : List Nat

/-- Modelled from the spec: the recursive descent of the Transformer
(spec §4.3), over a sequence of sibling block ids.  Each id is checked
against the ancestor path (the mandatory bounded visited-id cycle guard of
spec §7, raising the named InvariantViolation), resolved through the
document index (an unresolvable id yields no node), its children transformed
recursively, and its own nodes and side-collection entries produced by the
per-tag handling rule `buildNode`; sibling results are appended in order. -/
def transformMany {α : Type} (doc : Doc α) (cfg : Config) (path : List Nat)
    (ids : List Nat) : Except InvariantViolation (Res α) :=
  match ids with
  | [] => .ok ⟨[], [], [], []⟩
  | id :: rest =>
    if hpath : id ∈ path then .error (.cycleDetected id)
    else
      match hfind : lookupDoc doc id with
      | none =>
        match transformMany doc cfg path rest with
        | .error e => .error e
        | .ok r => .ok ⟨[] :: r.entries, r.images, r.files, r.visited⟩
      | some blk =>
        match transformMany doc cfg (id :: path) (recChildren blk) with
        | .error e => .error e
        | .ok rc =>
          match transformMany doc cfg path rest with
          | .error e => .error e
          | .ok r =>
            let b := buildNode cfg blk rc.entries
            .ok ⟨b.nodes :: r.entries,
                 mergeRefs (mergeRefs b.images rc.images) r.images,
                 mergeRefs (mergeRefs b.files rc.files) r.files,
                 (id :: rc.visited) ++ r.visited⟩
termination_by (remaining doc path, ids.length)
decreasing_by
  · exact Prod.Lex.right _ (by simp)
  · exact Prod.Lex.left _ _ (remaining_lt (mem_docIds_of_lookup hfind) hpath)
  · exact Prod.Lex.right _ (by simp)

/-- Result of transforming one block: the nodes contributed at the block's
position, the side collections, and the visited ids. -/
structure OneOut (α : Type) where
  nodes : List (AstNode α)
  images : List (AssetRef α)
  files : List (AssetRef α)
  visited : List Nat

/-- Transform a single block (its contribution to the enclosing child
sequence). -/
def transformOne {α : Type} (doc : Doc α) (cfg : Config) (path : List Nat)
    (id : Nat) : Except InvariantViolation (OneOut α) :=
  match transformMany doc cfg path [id] with
  | .error e => .error e
  | .ok r => .ok ⟨r.entries.flatten, r.images, r.files, r.visited⟩

/-- Modelled from the spec: the public contract
`transform(rootBlock, config) -> { root, images, files }` (spec §4.3); the
root block must be of type PAGE (spec §6), otherwise the named
InvariantViolation failure is raised (spec §7). -/
def transform {α : Type} (doc : Doc α) (cfg : Config) (rootId : Nat) :
    Except InvariantViolation (AstNode α × List (AssetRef α) × List (AssetRef α)) :=
  match lookupDoc doc rootId with
  | none => .error .rootNotPage
  | some blk =>
    if blk.type = .PAGE then
      match transformOne doc cfg [] rootId with
      | .error e => .error e
      | .ok r => .ok (r.nodes.headD (.root []), r.images, r.files)
    else .error .rootNotPage

end Lark

namespace Lark

lemma tm_nil {α : Type} (doc : Doc α) (cfg : Config) (path : List Nat) :
    transformMany doc cfg path [] = .ok ⟨[], [], [], []⟩ := by
  rw [transformMany.eq_def]

lemma tm_cons_cycle {α : Type} {doc : Doc α} {cfg : Config} {path : List Nat}
    {id : Nat} {rest : List Nat} (h : id ∈ path) :
    transformMany doc cfg path (id :: rest) = .error (.cycleDetected id) := by
  rw [transformMany.eq_def]
  simp [h]

lemma tm_cons_none_ok {α : Type} {doc : Doc α} {cfg : Config} {path : List Nat}
    {id : Nat} {rest : List Nat} {r : Res α}
    (h1 : id ∉ path) (h2 : lookupDoc doc id = none)
    (h3 : transformMany doc cfg path rest = .ok r) :
    transformMany doc cfg path (id :: rest) =
      .ok ⟨[] :: r.entries, r.images, r.files, r.visited⟩ := by
  rw [transformMany.eq_2]
  rw [dif_neg h1]
  split
  · rw [h3]
  · next blk heq => rw [h2] at heq; cases heq

lemma tm_cons_some_ok {α : Type} {doc : Doc α} {cfg : Config} {path : List Nat}
    {id : Nat} {rest : List Nat} {blk : Block α} {rc r : Res α}
    (h1 : id ∉ path) (h2 : lookupDoc doc id = some blk)
    (h3 : transformMany doc cfg (id :: path) (recChildren blk) = .ok rc)
    (h4 : transformMany doc cfg path rest = .ok r) :
    transformMany doc cfg path (id :: rest) =
      .ok ⟨(buildNode cfg blk rc.entries).nodes :: r.entries,
           mergeRefs (mergeRefs (buildNode cfg blk rc.entries).images rc.images) r.images,
           mergeRefs (mergeRefs (buildNode cfg blk rc.entries).files rc.files) r.files,
           (id :: rc.visited) ++ r.visited⟩ := by
  rw [transformMany.eq_2]
  rw [dif_neg h1]
  split
  · next heq => rw [h2] at heq; cases heq
  · next blk' heq =>
      rw [h2] at heq
      cases heq
      rw [h3, h4]

lemma tm_cons_inv {α : Type} {doc : Doc α} {cfg : Config} {path : List Nat}
    {id : Nat} {rest : List Nat} {r : Res α}
    (h : transformMany doc cfg path (id :: rest) = .ok r) :
    id ∉ path ∧
    ((lookupDoc doc id = none ∧ ∃ rr, transformMany doc cfg path rest = .ok rr ∧
        r = ⟨[] :: rr.entries, rr.images, rr.files, rr.visited⟩) ∨
     (∃ blk rc rr, lookupDoc doc id = some blk ∧
        transformMany doc cfg (id :: path) (recChildren blk) = .ok rc ∧
        transformMany doc cfg path rest = .ok rr ∧
        r = ⟨(buildNode cfg blk rc.entries).nodes :: rr.entries,
             mergeRefs (mergeRefs (buildNode cfg blk rc.entries).images rc.images) rr.images,
             mergeRefs (mergeRefs (buildNode cfg blk rc.entries).files rc.files) rr.files,
             (id :: rc.visited) ++ rr.visited⟩)) := by
  rw [transformMany.eq_2] at h
  by_cases hpath : id ∈ path
  · rw [dif_pos hpath] at h; cases h
  · rw [dif_neg hpath] at h
    refine ⟨hpath, ?_⟩
    revert h
    split
    · next heq =>
      intro h
      split at h
      · cases h
      · next rr hrr =>
        cases h
        exact Or.inl ⟨heq, rr, hrr, rfl⟩
    · next blk heq =>
      intro h
      split at h
      · cases h
      · next rc hrc =>
        split at h
        · cases h
        · next rr hrr =>
          cases h
          exact Or.inr ⟨blk, rc, rr, heq, hrc, hrr, rfl⟩

lemma refAbsent_eq_true_iff {α : Type} {a : List (AssetRef α)} {r : AssetRef α} :
    refAbsent a r = true ↔ ∀ s ∈ a, s.blockId ≠ r.blockId := by
  simp [refAbsent, List.all_eq_true]

lemma mergeRefs_nil_left {α : Type} (b : List (AssetRef α)) : mergeRefs [] b = b := by
  simp [mergeRefs, refAbsent]

lemma mergeRefs_nil_right {α : Type} (a : List (AssetRef α)) : mergeRefs a [] = a := by
  simp [mergeRefs]

lemma refAbsent_append {α : Type} (a b : List (AssetRef α)) (r : AssetRef α) :
    refAbsent (a ++ b) r = (refAbsent a r && refAbsent b r) := by
  simp [refAbsent, List.all_append]

lemma refAbsent_filter_of_absent {α : Type} {a : List (AssetRef α)} {r : AssetRef α}
    (b : List (AssetRef α)) (href : refAbsent a r = true) :
    refAbsent (b.filter (refAbsent a)) r = refAbsent b r := by
  cases hb : refAbsent b r
  · have hnall : ¬ ∀ s ∈ b, s.blockId ≠ r.blockId := by
      intro hall
      rw [← refAbsent_eq_true_iff] at hall
      rw [hall] at hb
      cases hb
    push_neg at hnall
    obtain ⟨s, hs, hsid⟩ := hnall
    have hsab : refAbsent a s = true := by
      rw [refAbsent_eq_true_iff]
      intro t ht
      rw [hsid]
      exact refAbsent_eq_true_iff.mp href t ht
    rw [Bool.eq_false_iff]
    intro hcon
    exact refAbsent_eq_true_iff.mp hcon s (List.mem_filter.mpr ⟨hs, hsab⟩) hsid
  · rw [refAbsent_eq_true_iff] at hb ⊢
    intro s hs
    exact hb s (List.mem_filter.mp hs).1

lemma mergeRefs_assoc {α : Type} (a b c : List (AssetRef α)) :
    mergeRefs (mergeRefs a b) c = mergeRefs a (mergeRefs b c) := by
  show (a ++ b.filter (refAbsent a)) ++ c.filter (refAbsent (a ++ b.filter (refAbsent a)))
      = a ++ (b ++ c.filter (refAbsent b)).filter (refAbsent a)
  rw [List.filter_append, List.append_assoc, List.filter_filter]
  congr 1
  congr 1
  apply List.filter_congr
  intro x _
  rw [refAbsent_append]
  cases hax : refAbsent a x
  · simp
  · rw [refAbsent_filter_of_absent _ hax]

lemma tm_append {α : Type} {doc : Doc α} {cfg : Config} {path : List Nat}
    {xs ys : List Nat} {a b : Res α}
    (hxs : transformMany doc cfg path xs = .ok a)
    (hys : transformMany doc cfg path ys = .ok b) :
    transformMany doc cfg path (xs ++ ys) =
      .ok ⟨a.entries ++ b.entries, mergeRefs a.images b.images,
           mergeRefs a.files b.files, a.visited ++ b.visited⟩ := by
  induction xs generalizing a with
  | nil =>
    rw [tm_nil] at hxs
    cases hxs
    simpa [mergeRefs_nil_left] using hys
  | cons x xs' ih =>
    obtain ⟨hx, hcase⟩ := tm_cons_inv hxs
    cases hcase with
    | inl hnone =>
      obtain ⟨hlook, rr, hrr, hre⟩ := hnone
      cases hre
      rw [List.cons_append, tm_cons_none_ok hx hlook (ih hrr)]
      rfl
    | inr hsome =>
      obtain ⟨blk, rc, rr, hlook, hrc, hrr, hre⟩ := hsome
      cases hre
      rw [List.cons_append, tm_cons_some_ok hx hlook hrc (ih hrr)]
      simp [mergeRefs_assoc, List.append_assoc]

lemma transformOne_some {α : Type} {doc : Doc α} {cfg : Config} {path : List Nat}
    {id : Nat} {blk : Block α} {rc : Res α}
    (h1 : id ∉ path) (h2 : lookupDoc doc id = some blk)
    (h3 : transformMany doc cfg (id :: path) (recChildren blk) = .ok rc) :
    transformOne doc cfg path id =
      .ok ⟨(buildNode cfg blk rc.entries).nodes,
           mergeRefs (buildNode cfg blk rc.entries).images rc.images,
           mergeRefs (buildNode cfg blk rc.entries).files rc.files,
           id :: rc.visited⟩ := by
  unfold transformOne
  rw [tm_cons_some_ok h1 h2 h3 (tm_nil doc cfg path)]
  simp [mergeRefs_nil_right]

lemma recChildren_eq_nil_of_leaf {α : Type} {blk : Block α}
    (h : ∀ l, blk.type ≠ .HEADING l) (h2 : blk.type ≠ .PAGE)
    (h3 : blk.type ≠ .QUOTE_CONTAINER) (h4 : blk.type ≠ .BULLET)
    (h5 : blk.type ≠ .ORDERED) (h6 : blk.type ≠ .TODO) (h7 : blk.type ≠ .TABLE)
    (h8 : blk.type ≠ .CELL) (h9 : blk.type ≠ .GRID) (h10 : blk.type ≠ .GRID_COLUMN) :
    recChildren blk = [] := by
  unfold recChildren
  split
  all_goals first
    | rfl
    | (exfalso; simp_all)

lemma transformOne_leaf {α : Type} {doc : Doc α} {cfg : Config} {path : List Nat}
    {id : Nat} {blk : Block α}
    (h1 : id ∉ path) (h2 : lookupDoc doc id = some blk)
    (hleaf : recChildren blk = []) :
    transformOne doc cfg path id =
      .ok ⟨(buildNode cfg blk []).nodes, (buildNode cfg blk []).images,
           (buildNode cfg blk []).files, [id]⟩ := by
  have h3 : transformMany doc cfg (id :: path) (recChildren blk) = .ok ⟨[], [], [], []⟩ := by
    rw [hleaf, tm_nil]
  have := transformOne_some h1 h2 h3
  simpa [mergeRefs_nil_right] using this

end Lark

namespace Lark

/-- Claim C1: under every Configuration, a heading block of source level
1–6 transforms to a heading node of that level carrying the block's inline
content, while a heading block of source level 7–9 transforms to a paragraph
node (not a heading) carrying the identical inline content. -/
theorem c1_heading_levels {α : Type} (doc : Doc α) (cfg : Config) (path : List Nat)
    (id : Nat) (blk : Block α) (L : Nat)
    (hpath : id ∉ path) (hfind : lookupDoc doc id = some blk)
    (htype : blk.type = .HEADING L) :
    (1 ≤ L → L ≤ 6 → transformOne doc cfg path id =
      .ok ⟨[.heading L (renderRuns cfg (blk.runs.getD []))], [], [], [id]⟩) ∧
    (7 ≤ L → L ≤ 9 → transformOne doc cfg path id =
      .ok ⟨[.paragraph (renderRuns cfg (blk.runs.getD []))], [], [], [id]⟩) := by
  have hleaf : recChildren blk = [] := by simp [recChildren, htype]
  have hone := @transformOne_leaf _ doc cfg path id blk hpath hfind hleaf
  constructor
  · intro _ h6
    rw [hone]
    simp [buildNode, htype, h6]
  · intro h7 _
    have h6 : ¬ L ≤ 6 := by omega
    rw [hone]
    simp [buildNode, htype, h6]

/-- Claim C2: a block tagged BITABLE, CHAT_CARD, MINDNOTE, SHEET or FALLBACK
produces no AST node and no side-collection entry, and its children are not
visited (the visited-id list of its transformation is just the block itself);
skipping such a block between siblings keeps the surrounding sibling node
sequence intact. -/
theorem c2_unsupported_blocks {α : Type} (doc : Doc α) (cfg : Config) (path : List Nat)
    (id : Nat) (blk : Block α)
    (hpath : id ∉ path) (hfind : lookupDoc doc id = some blk)
    (htype : blk.type = .BITABLE ∨ blk.type = .CHAT_CARD ∨ blk.type = .MINDNOTE ∨
      blk.type = .SHEET ∨ blk.type = .FALLBACK) :
    transformOne doc cfg path id = .ok ⟨[], [], [], [id]⟩ ∧
    (∀ pre post a bres, transformMany doc cfg path pre = .ok a →
      transformMany doc cfg path post = .ok bres →
      transformMany doc cfg path (pre ++ id :: post) =
        .ok ⟨a.entries ++ [] :: bres.entries, mergeRefs a.images bres.images,
             mergeRefs a.files bres.files, a.visited ++ id :: bres.visited⟩ ∧
      (a.entries ++ [] :: bres.entries).flatten =
        a.entries.flatten ++ bres.entries.flatten) := by
  have hleaf : recChildren blk = [] := by
    rcases htype with h | h | h | h | h <;> simp [recChildren, h]
  have hbuild : buildNode cfg blk ([] : List (List (AstNode α))) = ⟨[], [], []⟩ := by
    rcases htype with h | h | h | h | h <;> simp [buildNode, h]
  have hchild : transformMany doc cfg (id :: path) (recChildren blk) = .ok ⟨[], [], [], []⟩ := by
    rw [hleaf, tm_nil]
  constructor
  · have hone := @transformOne_leaf _ doc cfg path id blk hpath hfind hleaf
    rw [hone, hbuild]
  · intro pre post a bres ha hb
    have hmid : transformMany doc cfg path (id :: post) =
        .ok ⟨[] :: bres.entries, bres.images, bres.files, id :: bres.visited⟩ := by
      have := tm_cons_some_ok hpath hfind hchild hb
      rw [this, hbuild]
      simp [mergeRefs_nil_left]
    constructor
    · have := tm_append ha hmid
      rw [this]
    · simp

lemma tm_mono {α : Type} {doc : Doc α} {cfg : Config} :
    ∀ (p0 ids : List Nat), ∀ path, (∀ x ∈ path, x ∈ p0) →
      ∀ r, transformMany doc cfg p0 ids = .ok r → transformMany doc cfg path ids = .ok r := by
  intro p0 ids0
  induction p0, ids0 using transformMany.induct doc cfg with
  | case1 p' =>
    intro path hsub r h
    rw [tm_nil] at h
    cases h
    rw [tm_nil]
  | case2 p' id rest hmem =>
    intro path hsub r h
    rw [tm_cons_cycle hmem] at h
    cases h
  | case3 p' id rest hni hlook e herr ih =>
    intro path hsub r h
    obtain ⟨hx, hcase⟩ := tm_cons_inv h
    cases hcase with
    | inl hc =>
      obtain ⟨_, rr, hrr, _⟩ := hc
      rw [herr] at hrr
      cases hrr
    | inr hc =>
      obtain ⟨blk, _, _, hl, _⟩ := hc
      rw [hlook] at hl
      cases hl
  | case4 p' id rest hni hlook rr hrest ih =>
    intro path hsub r h
    obtain ⟨hx, hcase⟩ := tm_cons_inv h
    cases hcase with
    | inl hc =>
      obtain ⟨_, rr', hrr', hre⟩ := hc
      cases hre
      have hidp : id ∉ path := fun hin => hx (hsub id hin)
      exact tm_cons_none_ok hidp hlook (ih path hsub rr' hrr')
    | inr hc =>
      obtain ⟨blk, _, _, hl, _⟩ := hc
      rw [hlook] at hl
      cases hl
  | case5 p' id rest hni blk hlook e herr ih =>
    intro path hsub r h
    obtain ⟨hx, hcase⟩ := tm_cons_inv h
    cases hcase with
    | inl hc =>
      obtain ⟨hl, _⟩ := hc
      rw [hlook] at hl
      cases hl
    | inr hc =>
      obtain ⟨blk', rc', rr', hl, hrc', _⟩ := hc
      rw [hlook] at hl
      cases hl
      rw [herr] at hrc'
      cases hrc'
  | case6 p' id rest hni blk hlook rc hrc e herr ih1 ih2 =>
    intro path hsub r h
    obtain ⟨hx, hcase⟩ := tm_cons_inv h
    cases hcase with
    | inl hc =>
      obtain ⟨hl, _⟩ := hc
      rw [hlook] at hl
      cases hl
    | inr hc =>
      obtain ⟨blk', rc', rr', hl, hrc', hrr', _⟩ := hc
      rw [hlook] at hl
      cases hl
      rw [herr] at hrr'
      cases hrr'
  | case7 p' id rest hni blk hlook rc hrc rr hrest ih1 ih2 =>
    intro path hsub r h
    obtain ⟨hx, hcase⟩ := tm_cons_inv h
    cases hcase with
    | inl hc =>
      obtain ⟨hl, _⟩ := hc
      rw [hlook] at hl
      cases hl
    | inr hc =>
      obtain ⟨blk', rc', rr', hl, hrc', hrr', hre⟩ := hc
      rw [hlook] at hl
      cases hl
      cases hre
      have hidp : id ∉ path := fun hin => hx (hsub id hin)
      have hsub' : ∀ x ∈ id :: path, x ∈ id :: p' := by
        intro x hxm
        cases List.mem_cons.mp hxm with
        | inl hxe => exact hxe ▸ List.mem_cons_self _ _
        | inr hxm => exact List.mem_cons_of_mem _ (hsub x hxm)
      have h1 := ih1 (id :: path) hsub' rc' hrc'
      have h2 := ih2 path hsub rr' hrr'
      exact tm_cons_some_ok hidp hlook h1 h2

/-- Claim C5: with `flatGrid` enabled, a GRID or GRID_COLUMN container is
elided: its transformed children are spliced directly into the enclosing
child sequence at the grid's position, preserving order (the grid's own
entry is exactly the concatenation of its children's entries, so a grid
never terminates a branch with no representation), and the resulting node
sequence, image collection and file collection are identical to those of the
tree with the children manually spliced in the grid's place. -/
theorem c5_grid_flatten {α : Type} (doc : Doc α) (cfg : Config) (path : List Nat)
    (id : Nat) (blk : Block α) (rc : Res α)
    (hflat : cfg.flatGrid = true)
    (hpath : id ∉ path) (hfind : lookupDoc doc id = some blk)
    (htype : blk.type = .GRID ∨ blk.type = .GRID_COLUMN)
    (hch : transformMany doc cfg (id :: path) blk.children = .ok rc) :
    transformOne doc cfg path id =
      .ok ⟨rc.entries.flatten, rc.images, rc.files, id :: rc.visited⟩ ∧
    transformMany doc cfg path blk.children = .ok rc ∧
    (∀ pre post a bres, transformMany doc cfg path pre = .ok a →
      transformMany doc cfg path post = .ok bres →
      transformMany doc cfg path (pre ++ id :: post) =
        .ok ⟨a.entries ++ rc.entries.flatten :: bres.entries,
             mergeRefs a.images (mergeRefs rc.images bres.images),
             mergeRefs a.files (mergeRefs rc.files bres.files),
             a.visited ++ ((id :: rc.visited) ++ bres.visited)⟩ ∧
      transformMany doc cfg path (pre ++ blk.children ++ post) =
        .ok ⟨a.entries ++ rc.entries ++ bres.entries,
             mergeRefs a.images (mergeRefs rc.images bres.images),
             mergeRefs a.files (mergeRefs rc.files bres.files),
             a.visited ++ rc.visited ++ bres.visited⟩ ∧
      (a.entries ++ rc.entries.flatten :: bres.entries).flatten =
        (a.entries ++ rc.entries ++ bres.entries).flatten) := by
  have hrec : recChildren blk = blk.children := by
    rcases htype with h | h <;> simp [recChildren, h]
  have hbuild : buildNode cfg blk rc.entries = ⟨rc.entries.flatten, [], []⟩ := by
    rcases htype with h | h <;> simp [buildNode, h]
  have hch' : transformMany doc cfg (id :: path) (recChildren blk) = .ok rc := by
    rw [hrec]; exact hch
  have hmono : transformMany doc cfg path blk.children = .ok rc := by
    refine tm_mono (id :: path) blk.children path ?_ rc hch
    intro x hx
    exact List.mem_cons_of_mem _ hx
  refine ⟨?_, hmono, ?_⟩
  · have hone := transformOne_some hpath hfind hch'
    rw [hone, hbuild]
    simp [mergeRefs_nil_left]
  · intro pre post a bres ha hb
    have hmid : transformMany doc cfg path (id :: post) =
        .ok ⟨rc.entries.flatten :: bres.entries, mergeRefs rc.images bres.images,
             mergeRefs rc.files bres.files, (id :: rc.visited) ++ bres.visited⟩ := by
      have := tm_cons_some_ok hpath hfind hch' hb
      rw [this, hbuild]
      simp [mergeRefs_nil_left]
    refine ⟨?_, ?_, ?_⟩
    · have := tm_append ha hmid
      rw [this]
    · have h1 := tm_append ha hmono
      have h2 := tm_append h1 hb
      rw [h2]
      simp [mergeRefs_assoc]
    · simp [List.append_assoc]

end Lark

namespace Lark

/-- A traversal chain: the successive child ids a depth-first descent can
follow from a block, each step resolving the current block through the
document index and descending into one of the children the transformer
actually visits (`recChildren`). -/
inductive VChain {α : Type} (doc : Doc α) : Nat → List Nat → Prop where
  | nil (a : Nat) : VChain doc a []
  | cons {a c : Nat} {l : List Nat} (blk : Block α) (h1 : lookupDoc doc a = some blk)
      (h2 : c ∈ recChildren blk) (h3 : VChain doc c l) : VChain doc a (c :: l)

/-- `b` is reachable from `a` along visited child references. -/
def Reaches {α : Type} (doc : Doc α) (a b : Nat) : Prop :=
  ∃ l, VChain doc a l ∧ l.getLastD a = b

/-- The document contains a self- or mutually-referential child-id cycle
among the blocks the traversal from `root` visits. -/
def HasCycle {α : Type} (doc : Doc α) (root : Nat) : Prop :=
  ∃ a blk c, Reaches doc root a ∧ lookupDoc doc a = some blk ∧
    c ∈ recChildren blk ∧ Reaches doc c a

lemma getLastD_mem_cons_self : ∀ (l : List Nat) (a : Nat), l.getLastD a ∈ a :: l := by
  intro l
  induction l with
  | nil => intro a; simp
  | cons x t ih =>
    intro a
    rw [List.getLastD_cons]
    exact List.mem_cons_of_mem _ (ih x)

lemma vchain_append {α : Type} {doc : Doc α} {blk : Block α} {c : Nat} :
    ∀ {a : Nat} {l1 : List Nat}, VChain doc a l1 →
      lookupDoc doc (l1.getLastD a) = some blk → c ∈ recChildren blk →
      ∀ {l2 : List Nat}, VChain doc c l2 → VChain doc a (l1 ++ c :: l2) := by
  intro a l1 h1
  induction h1 with
  | nil b =>
    intro hlook hc l2 h2
    simp only [List.getLastD] at hlook
    exact VChain.cons blk hlook hc h2
  | cons blk' hl1 hc1 h3 ih =>
    intro hlook hc l2 h2
    rw [List.getLastD_cons] at hlook
    exact VChain.cons blk' hl1 hc1 (ih hlook hc h2)

lemma tm_ok_elem {α : Type} {doc : Doc α} {cfg : Config} :
    ∀ {path ids : List Nat} {r : Res α},
      transformMany doc cfg path ids = .ok r → ∀ i ∈ ids,
      i ∉ path ∧ ∀ blk, lookupDoc doc i = some blk →
        ∃ rc, transformMany doc cfg (i :: path) (recChildren blk) = .ok rc := by
  intro path ids
  induction ids with
  | nil => intro r _ i hi; simp at hi
  | cons x rest ih =>
    intro r h i hi
    obtain ⟨hx, hcase⟩ := tm_cons_inv h
    cases List.mem_cons.mp hi with
    | inl hie =>
      subst hie
      refine ⟨hx, ?_⟩
      intro blk hblk
      cases hcase with
      | inl hc =>
        rw [hc.1] at hblk
        cases hblk
      | inr hc =>
        obtain ⟨blk', rc, rr, hl, hrc, _, _⟩ := hc
        rw [hl] at hblk
        cases hblk
        exact ⟨rc, hrc⟩
    | inr hir =>
      cases hcase with
      | inl hc =>
        obtain ⟨_, rr, hrr, _⟩ := hc
        exact ih hrr i hir
      | inr hc =>
        obtain ⟨_, _, rr, _, _, hrr, _⟩ := hc
        exact ih hrr i hir

lemma tm_ok_chain {α : Type} {doc : Doc α} {cfg : Config} :
    ∀ (l path ids : List Nat) (r : Res α) (i : Nat),
      transformMany doc cfg path ids = .ok r → i ∈ ids → VChain doc i l →
      (i :: l).Nodup ∧ ∀ x ∈ i :: l, x ∉ path := by
  intro l
  induction l with
  | nil =>
    intro path ids r i h hi _
    refine ⟨List.nodup_singleton i, ?_⟩
    intro x hx
    rw [List.mem_singleton] at hx
    subst hx
    exact (tm_ok_elem h _ hi).1
  | cons c l' ih =>
    intro path ids r i h hi hchain
    cases hchain with
    | cons blk h1 h2 h3 =>
      obtain ⟨hip, helem⟩ := tm_ok_elem h i hi
      obtain ⟨rc, hrc⟩ := helem blk h1
      obtain ⟨hnd, hnp⟩ := ih _ _ _ _ hrc h2 h3
      constructor
      · rw [List.nodup_cons]
        refine ⟨?_, hnd⟩
        intro hmem
        exact hnp i hmem (List.mem_cons_self _ _)
      · intro x hx
        cases List.mem_cons.mp hx with
        | inl hxe => exact hxe ▸ hip
        | inr hxm =>
          intro hxp
          exact hnp x hxm (List.mem_cons_of_mem _ hxp)

lemma transform_ok_inv {α : Type} {doc : Doc α} {cfg : Config} {rootId : Nat}
    {v : AstNode α × List (AssetRef α) × List (AssetRef α)}
    (h : transform doc cfg rootId = .ok v) :
    ∃ blk r, lookupDoc doc rootId = some blk ∧ blk.type = .PAGE ∧
      transformMany doc cfg [] [rootId] = .ok r ∧
      v = (r.entries.flatten.headD (.root []), r.images, r.files) := by
  unfold transform at h
  split at h
  · cases h
  · next blk heq =>
    split at h
    · next hpage =>
      split at h
      · cases h
      · next r hm =>
        cases h
        unfold transformOne at hm
        split at hm
        · cases hm
        · next rr hmm =>
          cases hm
          exact ⟨blk, rr, heq, hpage, hmm, rfl⟩
    · cases h

/-- Claim C6: when the root block is not a PAGE, or the block tree contains a
child-id cycle among the blocks the traversal visits, `transform` returns a
single named `InvariantViolation` failure (it is a total function, so it
terminates and never returns a partial AST). -/
theorem c6_cycle_and_root_guard {α : Type} (doc : Doc α) (cfg : Config) (rootId : Nat)
    (h : (∀ blk, lookupDoc doc rootId = some blk → blk.type ≠ .PAGE) ∨
      HasCycle doc rootId) :
    ∃ e, transform doc cfg rootId = .error e := by
  cases htr : transform doc cfg rootId with
  | error e => exact ⟨e, rfl⟩
  | ok v =>
    exfalso
    obtain ⟨blk, r, hlook, hpage, hm, _⟩ := transform_ok_inv htr
    cases h with
    | inl hnp => exact hnp blk hlook hpage
    | inr hcyc =>
      obtain ⟨a, blk', c, ⟨l1, hch1, hl1⟩, hlooka, hcmem, ⟨l2, hch2, hl2⟩⟩ := hcyc
      have hfull : VChain doc rootId (l1 ++ c :: l2) :=
        vchain_append hch1 (hl1 ▸ hlooka) hcmem hch2
      have hnd := (tm_ok_chain _ _ _ _ _ hm (List.mem_singleton.mpr rfl) hfull).1
      have hsplit : rootId :: (l1 ++ c :: l2) = (rootId :: l1) ++ (c :: l2) := by simp
      rw [hsplit] at hnd
      have hdisj := List.disjoint_of_nodup_append hnd
      have ha1 : a ∈ rootId :: l1 := hl1 ▸ getLastD_mem_cons_self l1 rootId
      have ha2 : a ∈ c :: l2 := hl2 ▸ getLastD_mem_cons_self l2 c
      exact hdisj ha1 ha2

lemma tm_total {α : Type} {doc : Doc α} {cfg : Config} :
    ∀ (path ids : List Nat),
      (∀ i ∈ ids, i ∉ path ∧
        ∀ l, VChain doc i l → (i :: l).Nodup ∧ ∀ x ∈ i :: l, x ∉ path) →
      ∃ r, transformMany doc cfg path ids = .ok r := by
  intro path0 ids0
  induction path0, ids0 using transformMany.induct doc cfg with
  | case1 p =>
    intro _
    exact ⟨_, tm_nil doc cfg p⟩
  | case2 p id rest hmem =>
    intro h
    exact absurd hmem (h id (List.mem_cons_self _ _)).1
  | case3 p id rest hni hlook e herr ih =>
    intro h
    have hrest : ∀ i ∈ rest, i ∉ p ∧
        ∀ l, VChain doc i l → (i :: l).Nodup ∧ ∀ x ∈ i :: l, x ∉ p :=
      fun i hi => h i (List.mem_cons_of_mem _ hi)
    obtain ⟨r, hr⟩ := ih hrest
    rw [herr] at hr
    cases hr
  | case4 p id rest hni hlook rr hrest ih =>
    intro h
    exact ⟨_, tm_cons_none_ok hni hlook hrest⟩
  | case5 p id rest hni blk hlook e herr ih =>
    intro h
    have hid := (h id (List.mem_cons_self _ _)).2
    have hch : ∀ c ∈ recChildren blk, c ∉ id :: p ∧
        ∀ l, VChain doc c l → (c :: l).Nodup ∧ ∀ x ∈ c :: l, x ∉ id :: p := by
      intro c hc
      constructor
      · intro hmem
        obtain ⟨hnd, hnp⟩ := hid [c] (VChain.cons blk hlook hc (VChain.nil c))
        cases List.mem_cons.mp hmem with
        | inl hce =>
          rw [List.nodup_cons] at hnd
          exact hnd.1 (hce ▸ List.mem_singleton.mpr rfl)
        | inr hcp => exact hnp c (List.mem_cons_of_mem _ (List.mem_singleton.mpr rfl)) hcp
      · intro l hl
        obtain ⟨hnd, hnp⟩ := hid (c :: l) (VChain.cons blk hlook hc hl)
        rw [List.nodup_cons] at hnd
        refine ⟨hnd.2, ?_⟩
        intro x hx
        intro hxm
        cases List.mem_cons.mp hxm with
        | inl hxe => exact hnd.1 (hxe ▸ hx)
        | inr hxp => exact hnp x (List.mem_cons_of_mem _ hx) hxp
    obtain ⟨r, hr⟩ := ih hch
    rw [herr] at hr
    cases hr
  | case6 p id rest hni blk hlook rc hrc e herr ih1 ih2 =>
    intro h
    have hrest : ∀ i ∈ rest, i ∉ p ∧
        ∀ l, VChain doc i l → (i :: l).Nodup ∧ ∀ x ∈ i :: l, x ∉ p :=
      fun i hi => h i (List.mem_cons_of_mem _ hi)
    obtain ⟨r, hr⟩ := ih2 hrest
    rw [herr] at hr
    cases hr
  | case7 p id rest hni blk hlook rc hrc rr hrest ih1 ih2 =>
    intro h
    exact ⟨_, tm_cons_some_ok hni hlook hrc hrest⟩

/-- Claim C7: malformedness never aborts a conversion — on any well-tagged
input whose root is a PAGE and whose visited tree is acyclic, `transform`
returns a result, whatever the (possibly missing or inconsistent) payload
fields are; and a TABLE block declaring R rows by C columns but supplied
with fewer cell results yields a table node with exactly the declared row
count in which every missing cell is rendered as an empty `tableCell`. -/
theorem c7_malformed_no_throw {α : Type} (doc : Doc α) (cfg : Config) :
    (∀ rootId rblk, lookupDoc doc rootId = some rblk → rblk.type = .PAGE →
      (∀ l, VChain doc rootId l → (rootId :: l).Nodup) →
      ∃ res, transform doc cfg rootId = .ok res) ∧
    (∀ path id blk rc, id ∉ path → lookupDoc doc id = some blk → blk.type = .TABLE →
      transformMany doc cfg (id :: path) blk.children = .ok rc →
      transformOne doc cfg path id =
        .ok ⟨[.table (buildRows (blk.rowsCount.getD 0) (blk.columnsCount.getD 0) rc.entries)],
             rc.images, rc.files, id :: rc.visited⟩ ∧
      (buildRows (blk.rowsCount.getD 0) (blk.columnsCount.getD 0) rc.entries).length =
        blk.rowsCount.getD 0 ∧
      (∀ i j, i < blk.rowsCount.getD 0 → j < blk.columnsCount.getD 0 →
        rc.entries.length ≤ i * blk.columnsCount.getD 0 + j →
        ∃ row, (buildRows (blk.rowsCount.getD 0) (blk.columnsCount.getD 0)
            rc.entries).getD i (.tableRow []) = .tableRow row ∧
          row.getD j (.tableCell []) = AstNode.tableCell ([] : List (AstNode α)))) := by
  constructor
  · intro rootId rblk hlook hpage hacyc
    have htot : ∃ r, transformMany doc cfg [] [rootId] = .ok r := by
      apply tm_total
      intro i hi
      rw [List.mem_singleton] at hi
      subst hi
      refine ⟨List.not_mem_nil _, ?_⟩
      intro l hl
      exact ⟨hacyc l hl, fun x _ => List.not_mem_nil x⟩
    obtain ⟨r, hr⟩ := htot
    refine ⟨(r.entries.flatten.headD (.root []), r.images, r.files), ?_⟩
    unfold transform
    simp only [hlook]
    rw [if_pos hpage]
    unfold transformOne
    simp only [hr]
  · intro path id blk rc hpath hfind htype hch
    have hrec : recChildren blk = blk.children := by simp [recChildren, htype]
    have hbuild : buildNode cfg blk rc.entries =
        ⟨[.table (buildRows (blk.rowsCount.getD 0) (blk.columnsCount.getD 0) rc.entries)],
         [], []⟩ := by
      simp [buildNode, htype]
    have hch' : transformMany doc cfg (id :: path) (recChildren blk) = .ok rc := by
      rw [hrec]; exact hch
    refine ⟨?_, ?_, ?_⟩
    · have hone := transformOne_some hpath hfind hch'
      rw [hone, hbuild]
      simp [mergeRefs_nil_left]
    · simp [buildRows]
    · intro i j hi hj hmiss
      refine ⟨(List.range (blk.columnsCount.getD 0)).map (fun k =>
        AstNode.tableCell (rc.entries.getD (i * blk.columnsCount.getD 0 + k) [])), ?_, ?_⟩
      · unfold buildRows
        rw [List.getD_eq_getElem?_getD, List.getElem?_map, List.getElem?_range hi]
        rfl
      · rw [List.getD_eq_getElem?_getD, List.getElem?_map, List.getElem?_range hj]
        simp only [Option.map_some', Option.getD_some]
        rw [List.getD_eq_getElem?_getD, List.getElem?_eq_none hmiss]
        rfl

end Lark

namespace Lark

/-- Is the block stored under id `i` an IMAGE block? -/
def isImageBlock {α : Type} (doc : Doc α) (i : Nat) : Bool :=
  match lookupDoc doc i with
  | some b => match b.type with | .IMAGE => true | _ => false
  | none => false

/-- Is the block stored under id `i` a FILE block? -/
def isFileBlock {α : Type} (doc : Doc α) (i : Nat) : Bool :=
  match lookupDoc doc i with
  | some b => match b.type with | .FILE => true | _ => false
  | none => false

lemma lookup_id {α : Type} {doc : Doc α} {id : Nat} {blk : Block α}
    (h : lookupDoc doc id = some blk) : blk.id = id := by
  unfold lookupDoc at h
  have := List.find?_some h
  simpa using this

lemma isImageBlock_true_iff {α : Type} {doc : Doc α} {id : Nat} {blk : Block α}
    (h : lookupDoc doc id = some blk) :
    isImageBlock doc id = true ↔ blk.type = .IMAGE := by
  unfold isImageBlock
  rw [h]
  cases h2 : blk.type <;> simp [h2]

lemma isFileBlock_true_iff {α : Type} {doc : Doc α} {id : Nat} {blk : Block α}
    (h : lookupDoc doc id = some blk) :
    isFileBlock doc id = true ↔ blk.type = .FILE := by
  unfold isFileBlock
  rw [h]
  cases h2 : blk.type <;> simp [h2]

lemma buildNode_images_eq {α : Type} (cfg : Config) (blk : Block α)
    (entries : List (List (AstNode α))) :
    (buildNode cfg blk entries).images =
      if blk.type = .IMAGE then
        [⟨blk.id, blk.name, blk.token, blk.fetchSources, blk.fetchBlob⟩]
      else [] := by
  cases h2 : blk.type <;> simp only [buildNode, h2] <;>
    first
      | rfl
      | (split <;> rfl)

lemma buildNode_files_eq {α : Type} (cfg : Config) (blk : Block α)
    (entries : List (List (AstNode α))) :
    (buildNode cfg blk entries).files =
      if blk.type = .FILE then
        (if cfg.file then
          [⟨blk.id, blk.name, blk.token, blk.fetchSources, blk.fetchBlob⟩]
         else [])
      else [] := by
  cases h2 : blk.type <;> simp only [buildNode, h2] <;>
    first
      | rfl
      | (split <;> rfl)

lemma ids_buildNode_images {α : Type} (cfg : Config) (blk : Block α)
    (entries : List (List (AstNode α))) :
    (buildNode cfg blk entries).images.map AssetRef.blockId =
      if blk.type = .IMAGE then [blk.id] else [] := by
  rw [buildNode_images_eq]
  split <;> rfl

lemma ids_buildNode_files {α : Type} (cfg : Config) (blk : Block α)
    (entries : List (List (AstNode α))) :
    (buildNode cfg blk entries).files.map AssetRef.blockId =
      if blk.type = .FILE then (if cfg.file then [blk.id] else []) else [] := by
  rw [buildNode_files_eq]
  split <;> (try split) <;> rfl

lemma mem_map_blockId_mergeRefs {α : Type} {a b : List (AssetRef α)} {i : Nat} :
    i ∈ (mergeRefs a b).map AssetRef.blockId ↔
      i ∈ a.map AssetRef.blockId ∨ i ∈ b.map AssetRef.blockId := by
  unfold mergeRefs
  rw [List.map_append, List.mem_append]
  constructor
  · rintro (ha | hf)
    · exact Or.inl ha
    · obtain ⟨s, hs, hsi⟩ := List.mem_map.mp hf
      exact Or.inr (List.mem_map.mpr ⟨s, (List.mem_filter.mp hs).1, hsi⟩)
  · rintro (ha | hb)
    · exact Or.inl ha
    · by_cases hin : i ∈ a.map AssetRef.blockId
      · exact Or.inl hin
      · obtain ⟨s, hs, hsi⟩ := List.mem_map.mp hb
        refine Or.inr (List.mem_map.mpr ⟨s, List.mem_filter.mpr ⟨hs, ?_⟩, hsi⟩)
        rw [refAbsent_eq_true_iff]
        intro t ht hte
        exact hin (List.mem_map.mpr ⟨t, ht, hsi ▸ hte⟩)

lemma nodup_map_blockId_mergeRefs {α : Type} {a b : List (AssetRef α)}
    (ha : (a.map AssetRef.blockId).Nodup) (hb : (b.map AssetRef.blockId).Nodup) :
    ((mergeRefs a b).map AssetRef.blockId).Nodup := by
  unfold mergeRefs
  rw [List.map_append, List.nodup_append]
  refine ⟨ha, ?_, ?_⟩
  · exact hb.sublist ((List.filter_sublist b).map AssetRef.blockId)
  · intro i hia hif
    obtain ⟨s, hs, hsi⟩ := List.mem_map.mp hif
    obtain ⟨hsb, hsab⟩ := List.mem_filter.mp hs
    obtain ⟨t, ht, hti⟩ := List.mem_map.mp hia
    exact refAbsent_eq_true_iff.mp hsab t ht (hti.trans hsi.symm)

lemma mergeRefs_map_sublist {α : Type} (a b : List (AssetRef α)) :
    List.Sublist ((mergeRefs a b).map AssetRef.blockId)
      (a.map AssetRef.blockId ++ b.map AssetRef.blockId) := by
  unfold mergeRefs
  rw [List.map_append]
  exact ((List.filter_sublist b).map AssetRef.blockId).append_left _

end Lark

namespace Lark

lemma tm_images_invariant {α : Type} {doc : Doc α} {cfg : Config} :
    ∀ (path ids : List Nat), ∀ r : Res α, transformMany doc cfg path ids = .ok r →
      (r.images.map AssetRef.blockId).Nodup ∧
      List.Sublist (r.images.map AssetRef.blockId)
        (r.visited.filter (fun v => isImageBlock doc v)) ∧
      (∀ i, i ∈ r.images.map AssetRef.blockId ↔
        (i ∈ r.visited ∧ isImageBlock doc i = true)) := by
  intro path0 ids0
  induction path0, ids0 using transformMany.induct doc cfg with
  | case1 p =>
    intro r h
    rw [tm_nil] at h
    cases h
    simp
  | case2 p id rest hmem =>
    intro r h
    rw [tm_cons_cycle hmem] at h
    cases h
  | case3 p id rest hni hlook e herr ih =>
    intro r h
    obtain ⟨_, hcase⟩ := tm_cons_inv h
    rcases hcase with ⟨_, rr, hrr, _⟩ | ⟨blk, _, _, hl, _⟩
    · rw [herr] at hrr; cases hrr
    · rw [hlook] at hl; cases hl
  | case4 p id rest hni hlook rr hrest ih =>
    intro r h
    have hdet := tm_cons_none_ok hni hlook hrest
    rw [h] at hdet
    injection hdet with hdet
    subst hdet
    exact ih rr hrest
  | case5 p id rest hni blk hlook e herr ih =>
    intro r h
    obtain ⟨_, hcase⟩ := tm_cons_inv h
    rcases hcase with ⟨hl, _⟩ | ⟨blk', rc', rr', hl, hrc', _⟩
    · rw [hlook] at hl; cases hl
    · rw [hlook] at hl; cases hl
      rw [herr] at hrc'; cases hrc'
  | case6 p id rest hni blk hlook rc hrc e herr ih1 ih2 =>
    intro r h
    obtain ⟨_, hcase⟩ := tm_cons_inv h
    rcases hcase with ⟨hl, _⟩ | ⟨blk', rc', rr', hl, hrc', hrr', _⟩
    · rw [hlook] at hl; cases hl
    · rw [hlook] at hl; cases hl
      rw [herr] at hrr'; cases hrr'
  | case7 p id rest hni blk hlook rc hrc rr hrest ih1 ih2 =>
    intro r h
    have hdet := tm_cons_some_ok hni hlook hrc hrest
    rw [h] at hdet
    injection hdet with hdet
    subst hdet
    obtain ⟨ih1n, ih1s, ih1m⟩ := ih1 rc hrc
    obtain ⟨ih2n, ih2s, ih2m⟩ := ih2 rr hrest
    have hbid : blk.id = id := lookup_id hlook
    have hids := ids_buildNode_images cfg blk rc.entries
    rw [hbid] at hids
    dsimp only
    refine ⟨?_, ?_, ?_⟩
    · apply nodup_map_blockId_mergeRefs
      · apply nodup_map_blockId_mergeRefs
        · rw [hids]
          split <;> simp
        · exact ih1n
      · exact ih2n
    · have hstep1 := mergeRefs_map_sublist
        (mergeRefs (buildNode cfg blk rc.entries).images rc.images) rr.images
      have hstep2 := mergeRefs_map_sublist (buildNode cfg blk rc.entries).images rc.images
      have hsub0 := hstep1.trans (hstep2.append_right _)
      rw [List.filter_append, List.filter_cons]
      by_cases himg : blk.type = .IMAGE
      · have hcond : isImageBlock doc id = true := (isImageBlock_true_iff hlook).mpr himg
        rw [hcond]
        rw [hids, if_pos himg] at hsub0
        refine hsub0.trans ?_
        simp only [if_true]
        have hinner := List.Sublist.append ih1s ih2s
        have := hinner.cons₂ id
        simpa using this
      · have hcond : isImageBlock doc id = false := by
          rw [← Bool.not_eq_true]
          intro hcon
          exact himg ((isImageBlock_true_iff hlook).mp hcon)
        rw [hcond]
        rw [hids, if_neg himg] at hsub0
        refine hsub0.trans ?_
        simp only [Bool.false_eq_true, if_false, List.nil_append]
        exact List.Sublist.append ih1s ih2s
    · intro i
      rw [mem_map_blockId_mergeRefs, mem_map_blockId_mergeRefs]
      constructor
      · rintro ((hb | hrc') | hrr')
        · rw [hids] at hb
          by_cases himg : blk.type = .IMAGE
          · rw [if_pos himg] at hb
            rw [List.mem_singleton] at hb
            subst hb
            exact ⟨List.mem_append_left _ (List.mem_cons_self _ _),
              (isImageBlock_true_iff hlook).mpr himg⟩
          · rw [if_neg himg] at hb
            exact absurd hb (List.not_mem_nil i)
        · obtain ⟨hv, hi⟩ := (ih1m i).mp hrc'
          exact ⟨List.mem_append_left _ (List.mem_cons_of_mem _ hv), hi⟩
        · obtain ⟨hv, hi⟩ := (ih2m i).mp hrr'
          exact ⟨List.mem_append_right _ hv, hi⟩
      · rintro ⟨hv, hi⟩
        rcases List.mem_append.mp hv with hv1 | hv2
        · rcases List.mem_cons.mp hv1 with hveq | hvrc
          · subst hveq
            left; left
            rw [hids, if_pos ((isImageBlock_true_iff hlook).mp hi)]
            exact List.mem_singleton.mpr rfl
          · left; right
            exact (ih1m i).mpr ⟨hvrc, hi⟩
        · right
          exact (ih2m i).mpr ⟨hv2, hi⟩

lemma tm_files_invariant {α : Type} {doc : Doc α} {cfg : Config} :
    ∀ (path ids : List Nat), ∀ r : Res α, transformMany doc cfg path ids = .ok r →
      (r.files.map AssetRef.blockId).Nodup ∧
      List.Sublist (r.files.map AssetRef.blockId)
        (r.visited.filter (fun v => isFileBlock doc v)) ∧
      (cfg.file = true → ∀ i, i ∈ r.files.map AssetRef.blockId ↔
        (i ∈ r.visited ∧ isFileBlock doc i = true)) := by
  intro path0 ids0
  induction path0, ids0 using transformMany.induct doc cfg with
  | case1 p =>
    intro r h
    rw [tm_nil] at h
    cases h
    simp
  | case2 p id rest hmem =>
    intro r h
    rw [tm_cons_cycle hmem] at h
    cases h
  | case3 p id rest hni hlook e herr ih =>
    intro r h
    obtain ⟨_, hcase⟩ := tm_cons_inv h
    rcases hcase with ⟨_, rr, hrr, _⟩ | ⟨blk, _, _, hl, _⟩
    · rw [herr] at hrr; cases hrr
    · rw [hlook] at hl; cases hl
  | case4 p id rest hni hlook rr hrest ih =>
    intro r h
    have hdet := tm_cons_none_ok hni hlook hrest
    rw [h] at hdet
    injection hdet with hdet
    subst hdet
    exact ih rr hrest
  | case5 p id rest hni blk hlook e herr ih =>
    intro r h
    obtain ⟨_, hcase⟩ := tm_cons_inv h
    rcases hcase with ⟨hl, _⟩ | ⟨blk', rc', rr', hl, hrc', _⟩
    · rw [hlook] at hl; cases hl
    · rw [hlook] at hl; cases hl
      rw [herr] at hrc'; cases hrc'
  | case6 p id rest hni blk hlook rc hrc e herr ih1 ih2 =>
    intro r h
    obtain ⟨_, hcase⟩ := tm_cons_inv h
    rcases hcase with ⟨hl, _⟩ | ⟨blk', rc', rr', hl, hrc', hrr', _⟩
    · rw [hlook] at hl; cases hl
    · rw [hlook] at hl; cases hl
      rw [herr] at hrr'; cases hrr'
  | case7 p id rest hni blk hlook rc hrc rr hrest ih1 ih2 =>
    intro r h
    have hdet := tm_cons_some_ok hni hlook hrc hrest
    rw [h] at hdet
    injection hdet with hdet
    subst hdet
    obtain ⟨ih1n, ih1s, ih1m⟩ := ih1 rc hrc
    obtain ⟨ih2n, ih2s, ih2m⟩ := ih2 rr hrest
    have hbid : blk.id = id := lookup_id hlook
    have hids := ids_buildNode_files cfg blk rc.entries
    rw [hbid] at hids
    dsimp only
    refine ⟨?_, ?_, ?_⟩
    · apply nodup_map_blockId_mergeRefs
      · apply nodup_map_blockId_mergeRefs
        · rw [hids]
          split
          · split <;> simp
          · simp
        · exact ih1n
      · exact ih2n
    · have hstep1 := mergeRefs_map_sublist
        (mergeRefs (buildNode cfg blk rc.entries).files rc.files) rr.files
      have hstep2 := mergeRefs_map_sublist (buildNode cfg blk rc.entries).files rc.files
      have hsub0 := hstep1.trans (hstep2.append_right _)
      rw [List.filter_append, List.filter_cons]
      have hinner := List.Sublist.append ih1s ih2s
      by_cases hfb : isFileBlock doc id = true
      · rw [hfb]
        simp only [if_true]
        refine hsub0.trans ?_
        rw [hids]
        by_cases hfile : blk.type = .FILE
        · rw [if_pos hfile]
          by_cases hcf : cfg.file
          · rw [if_pos hcf]
            have := hinner.cons₂ id
            simpa using this
          · rw [if_neg hcf]
            have := hinner.cons id
            simpa using this
        · rw [if_neg hfile]
          have := hinner.cons id
          simpa using this
      · have hfile : blk.type ≠ .FILE := fun hcon =>
          hfb ((isFileBlock_true_iff hlook).mpr hcon)
        rw [Bool.not_eq_true] at hfb
        rw [hfb]
        simp only [Bool.false_eq_true, if_false]
        refine hsub0.trans ?_
        rw [hids, if_neg hfile]
        simpa using hinner
    · intro hcf i
      have hids' : (buildNode cfg blk rc.entries).files.map AssetRef.blockId =
          if blk.type = .FILE then [id] else [] := by
        rw [hids, hcf]
        split <;> simp
      rw [mem_map_blockId_mergeRefs, mem_map_blockId_mergeRefs]
      constructor
      · rintro ((hb | hrc') | hrr')
        · rw [hids'] at hb
          by_cases hfile : blk.type = .FILE
          · rw [if_pos hfile] at hb
            rw [List.mem_singleton] at hb
            subst hb
            exact ⟨List.mem_append_left _ (List.mem_cons_self _ _),
              (isFileBlock_true_iff hlook).mpr hfile⟩
          · rw [if_neg hfile] at hb
            exact absurd hb (List.not_mem_nil i)
        · obtain ⟨hv, hi⟩ := ((ih1m hcf) i).mp hrc'
          exact ⟨List.mem_append_left _ (List.mem_cons_of_mem _ hv), hi⟩
        · obtain ⟨hv, hi⟩ := ((ih2m hcf) i).mp hrr'
          exact ⟨List.mem_append_right _ hv, hi⟩
      · rintro ⟨hv, hi⟩
        rcases List.mem_append.mp hv with hv1 | hv2
        · rcases List.mem_cons.mp hv1 with hveq | hvrc
          · subst hveq
            left; left
            rw [hids', if_pos ((isFileBlock_true_iff hlook).mp hi)]
            exact List.mem_singleton.mpr rfl
          · left; right
            exact ((ih1m hcf) i).mpr ⟨hvrc, hi⟩
        · right
          exact ((ih2m hcf) i).mpr ⟨hv2, hi⟩

end Lark

namespace Lark

lemma reaches_refl {α : Type} (doc : Doc α) (a : Nat) : Reaches doc a a :=
  ⟨[], VChain.nil a, rfl⟩

lemma reaches_cons {α : Type} {doc : Doc α} {a c b : Nat} {blk : Block α}
    (hlook : lookupDoc doc a = some blk) (hc : c ∈ recChildren blk)
    (h : Reaches doc c b) : Reaches doc a b := by
  obtain ⟨l, hch, hlast⟩ := h
  exact ⟨c :: l, VChain.cons blk hlook hc hch, by rw [List.getLastD_cons]; exact hlast⟩

lemma tm_visited_reach {α : Type} {doc : Doc α} {cfg : Config} :
    ∀ (path ids : List Nat), ∀ r : Res α, transformMany doc cfg path ids = .ok r →
      ∀ v ∈ r.visited, ∃ i ∈ ids, Reaches doc i v ∧ ∃ blk, lookupDoc doc v = some blk := by
  intro path0 ids0
  induction path0, ids0 using transformMany.induct doc cfg with
  | case1 p =>
    intro r h v hv
    rw [tm_nil] at h
    cases h
    exact absurd hv (List.not_mem_nil v)
  | case2 p id rest hmem =>
    intro r h
    rw [tm_cons_cycle hmem] at h
    cases h
  | case3 p id rest hni hlook e herr ih =>
    intro r h
    obtain ⟨_, hcase⟩ := tm_cons_inv h
    rcases hcase with ⟨_, rr, hrr, _⟩ | ⟨blk, _, _, hl, _⟩
    · rw [herr] at hrr; cases hrr
    · rw [hlook] at hl; cases hl
  | case4 p id rest hni hlook rr hrest ih =>
    intro r h
    have hdet := tm_cons_none_ok hni hlook hrest
    rw [h] at hdet
    injection hdet with hdet
    subst hdet
    intro v hv
    obtain ⟨i, hi, hreach, hex⟩ := ih rr hrest v hv
    exact ⟨i, List.mem_cons_of_mem _ hi, hreach, hex⟩
  | case5 p id rest hni blk hlook e herr ih =>
    intro r h
    obtain ⟨_, hcase⟩ := tm_cons_inv h
    rcases hcase with ⟨hl, _⟩ | ⟨blk', rc', rr', hl, hrc', _⟩
    · rw [hlook] at hl; cases hl
    · rw [hlook] at hl; cases hl
      rw [herr] at hrc'; cases hrc'
  | case6 p id rest hni blk hlook rc hrc e herr ih1 ih2 =>
    intro r h
    obtain ⟨_, hcase⟩ := tm_cons_inv h
    rcases hcase with ⟨hl, _⟩ | ⟨blk', rc', rr', hl, hrc', hrr', _⟩
    · rw [hlook] at hl; cases hl
    · rw [hlook] at hl; cases hl
      rw [herr] at hrr'; cases hrr'
  | case7 p id rest hni blk hlook rc hrc rr hrest ih1 ih2 =>
    intro r h
    have hdet := tm_cons_some_ok hni hlook hrc hrest
    rw [h] at hdet
    injection hdet with hdet
    subst hdet
    intro v hv
    dsimp only at hv
    rcases List.mem_append.mp hv with hv1 | hv2
    · rcases List.mem_cons.mp hv1 with hveq | hvrc
      · subst hveq
        exact ⟨v, List.mem_cons_self _ _, reaches_refl doc v, blk, hlook⟩
      · obtain ⟨c, hc, hreach, hex⟩ := ih1 rc hrc v hvrc
        exact ⟨id, List.mem_cons_self _ _, reaches_cons hlook hc hreach, hex⟩
    · obtain ⟨i, hi, hreach, hex⟩ := ih2 rr hrest v hv2
      exact ⟨i, List.mem_cons_of_mem _ hi, hreach, hex⟩

lemma tm_elem_visited {α : Type} {doc : Doc α} {cfg : Config} :
    ∀ {path ids : List Nat} {r : Res α}, transformMany doc cfg path ids = .ok r →
      ∀ i ∈ ids, ∀ (blk : Block α) (rc : Res α), lookupDoc doc i = some blk →
        transformMany doc cfg (i :: path) (recChildren blk) = .ok rc →
        i ∈ r.visited ∧ ∀ x ∈ rc.visited, x ∈ r.visited := by
  intro path ids
  induction ids with
  | nil => intro r _ i hi; exact absurd hi (List.not_mem_nil i)
  | cons y rest ih =>
    intro r h i hi blk rc hblk hrc
    obtain ⟨hy, hcase⟩ := tm_cons_inv h
    rcases List.mem_cons.mp hi with hie | hir
    · subst hie
      rcases hcase with ⟨hl, _⟩ | ⟨blk', rc', rr', hl, hrc', hrr', hre⟩
      · rw [hblk] at hl; cases hl
      · rw [hblk] at hl
        injection hl with hl
        subst hl
        rw [hrc] at hrc'
        injection hrc' with hrc'
        subst hrc'
        subst hre
        constructor
        · exact List.mem_append_left _ (List.mem_cons_self _ _)
        · intro x hx
          exact List.mem_append_left _ (List.mem_cons_of_mem _ hx)
    · rcases hcase with ⟨hl, rr, hrr, hre⟩ | ⟨blk', rc', rr', hl, hrc', hrr', hre⟩
      · subst hre
        exact ih hrr i hir blk rc hblk hrc
      · subst hre
        obtain ⟨h1, h2⟩ := ih hrr' i hir blk rc hblk hrc
        constructor
        · exact List.mem_append_right _ h1
        · intro x hx
          exact List.mem_append_right _ (h2 x hx)

lemma tm_reach_visited {α : Type} {doc : Doc α} {cfg : Config} :
    ∀ (l : List Nat), ∀ {path ids : List Nat} {r : Res α} {i : Nat},
      transformMany doc cfg path ids = .ok r → i ∈ ids → VChain doc i l →
      ∀ blk, lookupDoc doc (l.getLastD i) = some blk → l.getLastD i ∈ r.visited := by
  intro l
  induction l with
  | nil =>
    intro path ids r i h hi _ blk hblk
    simp only [List.getLastD] at hblk ⊢
    obtain ⟨_, helem⟩ := tm_ok_elem h i hi
    obtain ⟨rc, hrc⟩ := helem blk hblk
    exact (tm_elem_visited h i hi blk rc hblk hrc).1
  | cons c l' ih =>
    intro path ids r i h hi hchain blk hblk
    cases hchain with
    | cons blk0 h1 h2 h3 =>
      rw [List.getLastD_cons] at hblk ⊢
      obtain ⟨_, helem⟩ := tm_ok_elem h i hi
      obtain ⟨rc, hrc⟩ := helem blk0 h1
      have hmem := ih hrc h2 h3 blk hblk
      exact (tm_elem_visited h i hi blk0 rc h1 hrc).2 _ hmem

/-- Claim C4: `transform` is deterministic — it is a pure function of the
(Block tree, Configuration, root id) triple, so two successful runs on the
same inputs return structurally identical AST roots and side collections. -/
theorem c4_deterministic {α : Type} (doc : Doc α) (cfg : Config) (rootId : Nat)
    (r1 r2 : AstNode α × List (AssetRef α) × List (AssetRef α))
    (h1 : transform doc cfg rootId = .ok r1)
    (h2 : transform doc cfg rootId = .ok r2) : r1 = r2 :=
  Except.ok.inj (h1.symm.trans h2)

/-- Claim C3: on a successful run, the image collection returned by
`transform` has exactly one entry per distinct IMAGE block reachable from the
root by the traversal (after unsupported-pruning — reachability follows only
the child edges the transformer visits): the entry ids are duplicate-free,
an id appears exactly when it is a reachable IMAGE block, and the entries
are listed in traversal (document) order — their id sequence is a sublist of
the depth-first visited-id order.  The same holds of the file collection
when the `file` option is enabled. -/
theorem c3_asset_collections {α : Type} (doc : Doc α) (cfg : Config) (rootId : Nat)
    (node : AstNode α) (imgs fls : List (AssetRef α))
    (h : transform doc cfg rootId = .ok (node, imgs, fls)) :
    (imgs.map AssetRef.blockId).Nodup ∧
    (∀ i, i ∈ imgs.map AssetRef.blockId ↔
      (Reaches doc rootId i ∧ isImageBlock doc i = true)) ∧
    (∃ es vs, transformMany doc cfg [] [rootId] = .ok ⟨es, imgs, fls, vs⟩ ∧
      List.Sublist (imgs.map AssetRef.blockId) (vs.filter (fun v => isImageBlock doc v)) ∧
      List.Sublist (fls.map AssetRef.blockId) (vs.filter (fun v => isFileBlock doc v))) ∧
    (fls.map AssetRef.blockId).Nodup ∧
    (cfg.file = true → ∀ i, i ∈ fls.map AssetRef.blockId ↔
      (Reaches doc rootId i ∧ isFileBlock doc i = true)) := by
  obtain ⟨blk, r, hlook, hpage, hm, hv⟩ := transform_ok_inv h
  injection hv with hv1 hv2
  injection hv2 with hv2 hv3
  subst hv2
  subst hv3
  obtain ⟨hin, his, him⟩ := tm_images_invariant [] [rootId] r hm
  obtain ⟨hfn, hfs, hfm⟩ := tm_files_invariant [] [rootId] r hm
  have hvisited : ∀ i, i ∈ r.visited ↔
      (Reaches doc rootId i ∧ ∃ b, lookupDoc doc i = some b) := by
    intro i
    constructor
    · intro hiv
      obtain ⟨j, hj, hreach, hex⟩ := tm_visited_reach [] [rootId] r hm i hiv
      rw [List.mem_singleton] at hj
      subst hj
      exact ⟨hreach, hex⟩
    · rintro ⟨⟨l, hch, hlast⟩, b, hb⟩
      have := tm_reach_visited l hm (List.mem_singleton.mpr rfl) hch b (hlast ▸ hb)
      rw [hlast] at this
      exact this
  have himglook : ∀ i, isImageBlock doc i = true → ∃ b, lookupDoc doc i = some b := by
    intro i hi
    unfold isImageBlock at hi
    cases hb : lookupDoc doc i with
    | none => rw [hb] at hi; cases hi
    | some b => exact ⟨b, rfl⟩
  have hfllook : ∀ i, isFileBlock doc i = true → ∃ b, lookupDoc doc i = some b := by
    intro i hi
    unfold isFileBlock at hi
    cases hb : lookupDoc doc i with
    | none => rw [hb] at hi; cases hi
    | some b => exact ⟨b, rfl⟩
  refine ⟨hin, ?_, ⟨r.entries, r.visited, ?_, his, hfs⟩, hfn, ?_⟩
  · intro i
    rw [him i]
    constructor
    · rintro ⟨hiv, hii⟩
      exact ⟨((hvisited i).mp hiv).1, hii⟩
    · rintro ⟨hreach, hii⟩
      exact ⟨(hvisited i).mpr ⟨hreach, himglook i hii⟩, hii⟩
  · rw [← hm]
  · intro hcf i
    rw [hfm hcf i]
    constructor
    · rintro ⟨hiv, hii⟩
      exact ⟨((hvisited i).mp hiv).1, hii⟩
    · rintro ⟨hreach, hii⟩
      exact ⟨(hvisited i).mpr ⟨hreach, hfllook i hii⟩, hii⟩

end Lark

namespace Lark

/-- Replace each deferred accessor handle (of type `α`) in an asset reference
by its image under `f`, leaving everything else untouched. -/
def mapRef {α β : Type} (f : α → β) (r : AssetRef α) : AssetRef β :=
  ⟨r.blockId, r.name, r.token, r.fetchSources.map f, r.fetchBlob.map f⟩

/-- Replace each deferred accessor handle of a block by its image under `f`. -/
def mapBlock {α β : Type} (f : α → β) (b : Block α) : Block β :=
  { id := b.id, type := b.type, children := b.children, runs := b.runs,
    title := b.title, codeText := b.codeText, language := b.language,
    rowsCount := b.rowsCount, columnsCount := b.columnsCount, name := b.name,
    token := b.token, url := b.url, checked := b.checked,
    fetchSources := b.fetchSources.map f, fetchBlob := b.fetchBlob.map f }

/-- Replace the accessor handles of every block of a document. -/
def mapDoc {α β : Type} (f : α → β) (doc : Doc α) : Doc β :=
  doc.map (mapBlock f)

/-- Replace the accessor handles in the extension data of every AST node. -/
def mapAst {α β : Type} (f : α → β) : AstNode α → AstNode β
  | .root cs => .root (cs.attach.map (fun x => mapAst f x.1))
  | .heading d cs => .heading d cs
  | .paragraph cs => .paragraph cs
  | .code l v => .code l v
  | .blockquote cs => .blockquote (cs.attach.map (fun x => mapAst f x.1))
  | .list o cs => .list o (cs.attach.map (fun x => mapAst f x.1))
  | .listItem c cs => .listItem c (cs.attach.map (fun x => mapAst f x.1))
  | .table cs => .table (cs.attach.map (fun x => mapAst f x.1))
  | .tableRow cs => .tableRow (cs.attach.map (fun x => mapAst f x.1))
  | .tableCell cs => .tableCell (cs.attach.map (fun x => mapAst f x.1))
  | .thematicBreak => .thematicBreak
  | .image n t s b => .image n t (s.map f) (b.map f)
  | .file n t s b => .file n t (s.map f) (b.map f)
decreasing_by all_goals
  (simp only [AstNode.root.sizeOf_spec, AstNode.blockquote.sizeOf_spec,
    AstNode.list.sizeOf_spec, AstNode.listItem.sizeOf_spec,
    AstNode.table.sizeOf_spec, AstNode.tableRow.sizeOf_spec,
    AstNode.tableCell.sizeOf_spec]
   have := List.sizeOf_lt_of_mem x.2
   omega)

/-- Replace the accessor handles throughout a traversal result. -/
def mapRes {α β : Type} (f : α → β) (r : Res α) : Res β :=
  ⟨r.entries.map (List.map (mapAst f)), r.images.map (mapRef f),
   r.files.map (mapRef f), r.visited⟩

end Lark

namespace Lark

lemma mapAst_attach_map {α β : Type} (f : α → β) (l : List (AstNode α)) :
    l.attach.map (fun x => mapAst f x.1) = l.map (mapAst f) := by
  simp

@[simp] lemma mapAst_root {α β : Type} (f : α → β) (cs : List (AstNode α)) :
    mapAst f (.root cs) = .root (cs.map (mapAst f)) := by
  rw [mapAst, mapAst_attach_map]

@[simp] lemma mapAst_heading {α β : Type} (f : α → β) (d : Nat) (cs : List InlinePart) :
    mapAst f (.heading d cs) = .heading d cs := by
  rw [mapAst]

@[simp] lemma mapAst_paragraph {α β : Type} (f : α → β) (cs : List InlinePart) :
    mapAst f (.paragraph cs) = .paragraph cs := by
  rw [mapAst]

@[simp] lemma mapAst_code {α β : Type} (f : α → β) (l v : List Char) :
    mapAst f (.code l v) = .code l v := by
  rw [mapAst]

@[simp] lemma mapAst_blockquote {α β : Type} (f : α → β) (cs : List (AstNode α)) :
    mapAst f (.blockquote cs) = .blockquote (cs.map (mapAst f)) := by
  rw [mapAst, mapAst_attach_map]

@[simp] lemma mapAst_list {α β : Type} (f : α → β) (o : Bool) (cs : List (AstNode α)) :
    mapAst f (.list o cs) = .list o (cs.map (mapAst f)) := by
  rw [mapAst, mapAst_attach_map]

@[simp] lemma mapAst_listItem {α β : Type} (f : α → β) (c : Option Bool)
    (cs : List (AstNode α)) :
    mapAst f (.listItem c cs) = .listItem c (cs.map (mapAst f)) := by
  rw [mapAst, mapAst_attach_map]

@[simp] lemma mapAst_table {α β : Type} (f : α → β) (cs : List (AstNode α)) :
    mapAst f (.table cs) = .table (cs.map (mapAst f)) := by
  rw [mapAst, mapAst_attach_map]

@[simp] lemma mapAst_tableRow {α β : Type} (f : α → β) (cs : List (AstNode α)) :
    mapAst f (.tableRow cs) = .tableRow (cs.map (mapAst f)) := by
  rw [mapAst, mapAst_attach_map]

@[simp] lemma mapAst_tableCell {α β : Type} (f : α → β) (cs : List (AstNode α)) :
    mapAst f (.tableCell cs) = .tableCell (cs.map (mapAst f)) := by
  rw [mapAst, mapAst_attach_map]

@[simp] lemma mapAst_thematicBreak {α β : Type} (f : α → β) :
    mapAst f (.thematicBreak : AstNode α) = .thematicBreak := by
  rw [mapAst]

@[simp] lemma mapAst_image {α β : Type} (f : α → β) (n t : Option (List Char))
    (s b : Option α) :
    mapAst f (.image n t s b) = .image n t (s.map f) (b.map f) := by
  rw [mapAst]

@[simp] lemma mapAst_file {α β : Type} (f : α → β) (n t : Option (List Char))
    (s b : Option α) :
    mapAst f (.file n t s b) = .file n t (s.map f) (b.map f) := by
  rw [mapAst]

lemma lookup_mapDoc {α β : Type} (f : α → β) (doc : Doc α) (id : Nat) :
    lookupDoc (mapDoc f doc) id = (lookupDoc doc id).map (mapBlock f) := by
  unfold lookupDoc mapDoc
  induction doc with
  | nil => rfl
  | cons b t ih =>
    rw [List.map_cons, List.find?_cons, List.find?_cons]
    have hid : (mapBlock f b).id = b.id := rfl
    rw [hid]
    cases hb : (b.id == id)
    · exact ih
    · rfl

lemma recChildren_mapBlock {α β : Type} (f : α → β) (blk : Block α) :
    recChildren (mapBlock f blk) = recChildren blk := by
  have htype : (mapBlock f blk).type = blk.type := rfl
  have hch : (mapBlock f blk).children = blk.children := rfl
  unfold recChildren
  rw [htype, hch]

lemma refAbsent_mapRef {α β : Type} (f : α → β) (a : List (AssetRef α)) (r : AssetRef α) :
    refAbsent (a.map (mapRef f)) (mapRef f r) = refAbsent a r := by
  unfold refAbsent
  induction a with
  | nil => rfl
  | cons x t ih =>
    simp only [List.map_cons, List.all_cons, ih]
    rfl

lemma mergeRefs_map {α β : Type} (f : α → β) (a b : List (AssetRef α)) :
    mergeRefs (a.map (mapRef f)) (b.map (mapRef f)) = (mergeRefs a b).map (mapRef f) := by
  unfold mergeRefs
  rw [List.map_append]
  congr 1
  rw [List.filter_map]
  congr 1
  apply List.filter_congr
  intro x _
  exact refAbsent_mapRef f a x

lemma getD_entries_map {α β : Type} (f : α → β) (entries : List (List (AstNode α)))
    (k : Nat) :
    (entries.map (List.map (mapAst f))).getD k [] = (entries.getD k []).map (mapAst f) := by
  rw [List.getD_eq_getElem?_getD, List.getD_eq_getElem?_getD, List.getElem?_map]
  cases entries[k]? <;> simp

lemma buildRows_map {α β : Type} (f : α → β) (rows cols : Nat)
    (entries : List (List (AstNode α))) :
    buildRows rows cols (entries.map (List.map (mapAst f))) =
      (buildRows rows cols entries).map (mapAst f) := by
  unfold buildRows
  rw [List.map_map]
  apply List.map_congr_left
  intro i _
  simp [List.map_map]
  intro a _
  cases entries[i * cols + a]? <;> simp

lemma buildNode_map {α β : Type} (f : α → β) (cfg : Config) (blk : Block α)
    (entries : List (List (AstNode α))) :
    buildNode cfg (mapBlock f blk) (entries.map (List.map (mapAst f))) =
      ⟨(buildNode cfg blk entries).nodes.map (mapAst f),
       (buildNode cfg blk entries).images.map (mapRef f),
       (buildNode cfg blk entries).files.map (mapRef f)⟩ := by
  have htype : (mapBlock f blk).type = blk.type := rfl
  cases h2 : blk.type <;>
    simp [buildNode, htype, h2, mapBlock, mapRef, buildRows_map, List.map_flatten] <;>
    (try split) <;>
    simp [mapRef]

end Lark

namespace Lark

lemma tm_cons_none_err {α : Type} {doc : Doc α} {cfg : Config} {path : List Nat}
    {id : Nat} {rest : List Nat} {e : InvariantViolation}
    (h1 : id ∉ path) (h2 : lookupDoc doc id = none)
    (h3 : transformMany doc cfg path rest = .error e) :
    transformMany doc cfg path (id :: rest) = .error e := by
  rw [transformMany.eq_2, dif_neg h1]
  split
  · rw [h3]
  · next blk heq => rw [h2] at heq; cases heq

lemma tm_cons_some_err1 {α : Type} {doc : Doc α} {cfg : Config} {path : List Nat}
    {id : Nat} {rest : List Nat} {blk : Block α} {e : InvariantViolation}
    (h1 : id ∉ path) (h2 : lookupDoc doc id = some blk)
    (h3 : transformMany doc cfg (id :: path) (recChildren blk) = .error e) :
    transformMany doc cfg path (id :: rest) = .error e := by
  rw [transformMany.eq_2, dif_neg h1]
  split
  · next heq => rw [h2] at heq; cases heq
  · next blk' heq =>
      rw [h2] at heq
      cases heq
      rw [h3]

lemma tm_cons_some_err2 {α : Type} {doc : Doc α} {cfg : Config} {path : List Nat}
    {id : Nat} {rest : List Nat} {blk : Block α} {rc : Res α} {e : InvariantViolation}
    (h1 : id ∉ path) (h2 : lookupDoc doc id = some blk)
    (h3 : transformMany doc cfg (id :: path) (recChildren blk) = .ok rc)
    (h4 : transformMany doc cfg path rest = .error e) :
    transformMany doc cfg path (id :: rest) = .error e := by
  rw [transformMany.eq_2, dif_neg h1]
  split
  · next heq => rw [h2] at heq; cases heq
  · next blk' heq =>
      rw [h2] at heq
      cases heq
      rw [h3, h4]

lemma tm_naturality {α β : Type} {doc : Doc α} {cfg : Config} (f : α → β) :
    ∀ (path ids : List Nat),
      transformMany (mapDoc f doc) cfg path ids =
        Except.map (mapRes f) (transformMany doc cfg path ids) := by
  intro path0 ids0
  induction path0, ids0 using transformMany.induct doc cfg with
  | case1 p =>
    rw [tm_nil, tm_nil]
    rfl
  | case2 p id rest hmem =>
    rw [tm_cons_cycle hmem, tm_cons_cycle hmem]
    rfl
  | case3 p id rest hni hlook e herr ih =>
    have hlook' : lookupDoc (mapDoc f doc) id = none := by
      rw [lookup_mapDoc, hlook]
      rfl
    have herr' : transformMany (mapDoc f doc) cfg p rest = .error e := by
      rw [ih, herr]
      rfl
    rw [tm_cons_none_err hni hlook' herr', tm_cons_none_err hni hlook herr]
    rfl
  | case4 p id rest hni hlook rr hrest ih =>
    have hlook' : lookupDoc (mapDoc f doc) id = none := by
      rw [lookup_mapDoc, hlook]
      rfl
    have hrest' : transformMany (mapDoc f doc) cfg p rest = .ok (mapRes f rr) := by
      rw [ih, hrest]
      rfl
    rw [tm_cons_none_ok hni hlook' hrest', tm_cons_none_ok hni hlook hrest]
    simp [Except.map, mapRes]
  | case5 p id rest hni blk hlook e herr ih =>
    have hlook' : lookupDoc (mapDoc f doc) id = some (mapBlock f blk) := by
      rw [lookup_mapDoc, hlook]
      rfl
    have herr' : transformMany (mapDoc f doc) cfg (id :: p)
        (recChildren (mapBlock f blk)) = .error e := by
      rw [recChildren_mapBlock, ih, herr]
      rfl
    rw [tm_cons_some_err1 hni hlook' herr', tm_cons_some_err1 hni hlook herr]
    rfl
  | case6 p id rest hni blk hlook rc hrc e herr ih1 ih2 =>
    have hlook' : lookupDoc (mapDoc f doc) id = some (mapBlock f blk) := by
      rw [lookup_mapDoc, hlook]
      rfl
    have hrc' : transformMany (mapDoc f doc) cfg (id :: p)
        (recChildren (mapBlock f blk)) = .ok (mapRes f rc) := by
      rw [recChildren_mapBlock, ih1, hrc]
      rfl
    have herr' : transformMany (mapDoc f doc) cfg p rest = .error e := by
      rw [ih2, herr]
      rfl
    rw [tm_cons_some_err2 hni hlook' hrc' herr', tm_cons_some_err2 hni hlook hrc herr]
    rfl
  | case7 p id rest hni blk hlook rc hrc rr hrest ih1 ih2 =>
    have hlook' : lookupDoc (mapDoc f doc) id = some (mapBlock f blk) := by
      rw [lookup_mapDoc, hlook]
      rfl
    have hrc' : transformMany (mapDoc f doc) cfg (id :: p)
        (recChildren (mapBlock f blk)) = .ok (mapRes f rc) := by
      rw [recChildren_mapBlock, ih1, hrc]
      rfl
    have hrest' : transformMany (mapDoc f doc) cfg p rest = .ok (mapRes f rr) := by
      rw [ih2, hrest]
      rfl
    rw [tm_cons_some_ok hni hlook' hrc' hrest', tm_cons_some_ok hni hlook hrc hrest]
    have hb := buildNode_map f cfg blk rc.entries
    simp only [mapRes] at hb ⊢
    rw [hb]
    simp [Except.map, mapRes, mergeRefs_map]

/-- Claim C8: the transformer threads the original deferred accessors through
unmodified — an IMAGE (or enabled FILE) block's AST node and side-collection
entry carry exactly the block's own `fetchSources`/`fetchBlob` handles — and
it never invokes them: the whole transformation is natural in the accessor
handle type (replacing the handles by any function of them commutes with
`transformMany`), so the produced AST shape cannot depend on accessor
behaviour and invoking an accessor afterwards cannot affect it. -/
theorem c8_accessors_threaded {α β : Type} (doc : Doc α) (cfg : Config) (f : α → β) :
    (∀ path id blk, id ∉ path → lookupDoc doc id = some blk → blk.type = .IMAGE →
      transformOne doc cfg path id =
        .ok ⟨[.image blk.name blk.token blk.fetchSources blk.fetchBlob],
             [⟨blk.id, blk.name, blk.token, blk.fetchSources, blk.fetchBlob⟩], [], [id]⟩) ∧
    (∀ path id blk, id ∉ path → lookupDoc doc id = some blk → blk.type = .FILE →
      cfg.file = true →
      transformOne doc cfg path id =
        .ok ⟨[.file blk.name blk.token blk.fetchSources blk.fetchBlob], [],
             [⟨blk.id, blk.name, blk.token, blk.fetchSources, blk.fetchBlob⟩], [id]⟩) ∧
    (∀ path ids, transformMany (mapDoc f doc) cfg path ids =
      Except.map (mapRes f) (transformMany doc cfg path ids)) := by
  refine ⟨?_, ?_, tm_naturality f⟩
  · intro path id blk hpath hfind htype
    have hleaf : recChildren blk = [] := by simp [recChildren, htype]
    have hone := @transformOne_leaf _ doc cfg path id blk hpath hfind hleaf
    rw [hone]
    simp [buildNode, htype]
  · intro path id blk hpath hfind htype hcf
    have hleaf : recChildren blk = [] := by simp [recChildren, htype]
    have hone := @transformOne_leaf _ doc cfg path id blk hpath hfind hleaf
    rw [hone]
    simp [buildNode, htype, hcf]

end Lark

namespace Background

/-- Concrete instance of claim C9 at the filename string "a/b:c". -/
theorem c9_sanitizeFilename_witness :
    (sanitizeFilename "a/b:c".toList).length ≤ 200 ∧
    (sanitizeFilename "a/b:c".toList).head? ≠ some '.' ∧
    '/' ∉ downloadFilename "a/b:c".toList ∧ '\\' ∉ downloadFilename "a/b:c".toList := by
  have h := c9_sanitizeFilename ("a/b:c".toList)
  exact ⟨h.1, h.2.2.1, h.2.2.2.1, h.2.2.2.2⟩

end Background

namespace WikiDetector

/-- Concrete instance of claim C10 at a parsed wiki URL. -/
theorem c10_isWikiPage_witness :
    isWikiPage none = false ∧
    (isWikiPage (some ⟨"/abc/wiki/xyz".toList, []⟩) = true ↔
      (wikiPat1 ("/abc/wiki/xyz".toList ++ []) = true ∨
       wikiPat2 ("/abc/wiki/xyz".toList ++ []) = true)) := by
  exact ⟨c10_isWikiPage.2.1, c10_isWikiPage.2.2.1 ⟨"/abc/wiki/xyz".toList, []⟩⟩

end WikiDetector

namespace Lark

/-- Two-heading document for the C1 witness: a level-2 and a level-7
heading. -/
def c1doc : Doc Nat := [
  { id := 1, type := .HEADING 2, runs := some [{ text := "Title".toList }] },
  { id := 2, type := .HEADING 7, runs := some [{ text := "Deep".toList }] }]

/-- Concrete instance of claim C1: the level-2 heading becomes a heading
node of depth 2, the level-7 heading becomes a paragraph node with the same
inline content. -/
theorem c1_heading_levels_witness :
    transformOne c1doc ({} : Config) [] 1 =
      .ok ⟨[.heading 2 (renderRuns {} [{ text := "Title".toList }])], [], [], [1]⟩ ∧
    transformOne c1doc ({} : Config) [] 2 =
      .ok ⟨[.paragraph (renderRuns {} [{ text := "Deep".toList }])], [], [], [2]⟩ := by
  constructor
  · exact (c1_heading_levels c1doc {} [] 1 _ 2 (by simp) rfl rfl).1 (by decide) (by decide)
  · exact (c1_heading_levels c1doc {} [] 2 _ 7 (by simp) rfl rfl).2 (by decide) (by decide)

/-- A BITABLE block with a child, for the C2 witness. -/
def c2doc : Doc Nat := [
  { id := 1, type := .BITABLE, children := [2] },
  { id := 2, type := .TEXT, runs := some [] }]

/-- Concrete instance of claim C2: the BITABLE block yields no node, no side
entries, and its child (id 2) is never visited. -/
theorem c2_unsupported_blocks_witness :
    transformOne c2doc ({} : Config) [] 1 = .ok ⟨[], [], [], [1]⟩ ∧
    transformMany c2doc ({} : Config) [] [1] = .ok ⟨[[]], [], [], [1]⟩ := by
  have h := c2_unsupported_blocks c2doc {} [] 1 _ (by simp) rfl (Or.inl rfl)
  refine ⟨h.1, ?_⟩
  exact (h.2 [] [] ⟨[], [], [], []⟩ ⟨[], [], [], []⟩ (tm_nil _ _ _) (tm_nil _ _ _)).1

/-- A PAGE with one IMAGE child, for the C3 witness. -/
def c3doc : Doc Nat := [
  { id := 1, type := .PAGE, children := [2] },
  { id := 2, type := .IMAGE, token := some "t1".toList, fetchSources := some 7,
    fetchBlob := some 8 }]

/-- Concrete instance of claim C3: the single reachable IMAGE block (id 2)
produces exactly one image entry and no file entry. -/
theorem c3_asset_collections_witness :
    (([⟨2, none, some "t1".toList, some 7, some 8⟩] :
        List (AssetRef Nat)).map AssetRef.blockId).Nodup ∧
    (∀ i, i ∈ ([⟨2, none, some "t1".toList, some 7, some 8⟩] :
        List (AssetRef Nat)).map AssetRef.blockId ↔
      (Reaches c3doc 1 i ∧ isImageBlock c3doc i = true)) ∧
    (∃ es vs, transformMany c3doc ({} : Config) [] [1] =
        .ok ⟨es, [⟨2, none, some "t1".toList, some 7, some 8⟩], [], vs⟩ ∧
      List.Sublist (([⟨2, none, some "t1".toList, some 7, some 8⟩] :
          List (AssetRef Nat)).map AssetRef.blockId)
        (vs.filter (fun v => isImageBlock c3doc v)) ∧
      List.Sublist (([] : List (AssetRef Nat)).map AssetRef.blockId)
        (vs.filter (fun v => isFileBlock c3doc v))) ∧
    (([] : List (AssetRef Nat)).map AssetRef.blockId).Nodup ∧
    (({} : Config).file = true → ∀ i, i ∈ ([] : List (AssetRef Nat)).map AssetRef.blockId ↔
      (Reaches c3doc 1 i ∧ isFileBlock c3doc i = true)) := by
  have h : transform c3doc ({} : Config) 1 =
      .ok (.root [.image none (some "t1".toList) (some 7) (some 8)],
           [⟨2, none, some "t1".toList, some 7, some 8⟩], []) := by
    simp [transform, transformOne, transformMany, lookupDoc, List.find?, recChildren,
      buildNode, mergeRefs, refAbsent]
  exact c3_asset_collections c3doc {} 1 _ _ _ h

/-- An empty PAGE for the C4 witness. -/
def c4doc : Doc Nat := [{ id := 1, type := .PAGE }]

/-- Concrete instance of claim C4: two runs of `transform` on the same
input agree. -/
theorem c4_deterministic_witness :
    ((.root [], [], []) : AstNode Nat × List (AssetRef Nat) × List (AssetRef Nat)) =
      ((.root [], [], []) :
        AstNode Nat × List (AssetRef Nat) × List (AssetRef Nat)) := by
  have h : transform c4doc ({} : Config) 1 =
      .ok ((.root [], [], []) :
        AstNode Nat × List (AssetRef Nat) × List (AssetRef Nat)) := by
    simp [transform, transformOne, transformMany, lookupDoc, List.find?, recChildren,
      buildNode, mergeRefs, refAbsent]
  exact c4_deterministic c4doc {} 1 _ _ h h

/-- The Configuration with `flatGrid` enabled, for the C5 witness. -/
def cfg5 : Config := { flatGrid := true }

/-- A GRID block with a TEXT child and a DIVIDER child, for the C5
witness. -/
def c5doc : Doc Nat := [
  { id := 2, type := .GRID, children := [3, 4] },
  { id := 3, type := .TEXT, runs := some [] },
  { id := 4, type := .DIVIDER }]

/-- Concrete instance of claim C5: the grid (id 2) contributes exactly its
two transformed children, spliced in order, and its children transform the
same in place. -/
theorem c5_grid_flatten_witness :
    transformOne c5doc cfg5 [1] 2 =
      .ok ⟨[.paragraph [], .thematicBreak], [], [], [2, 3, 4]⟩ ∧
    transformMany c5doc cfg5 [1] [3, 4] =
      .ok ⟨[[.paragraph []], [.thematicBreak]], [], [], [3, 4]⟩ := by
  have hch : transformMany c5doc cfg5 (2 :: [1]) [3, 4] =
      .ok ⟨[[.paragraph []], [.thematicBreak]], [], [], [3, 4]⟩ := by
    simp [transformMany, lookupDoc, List.find?, recChildren, buildNode, mergeRefs,
      refAbsent, renderRuns]
  have h := c5_grid_flatten c5doc cfg5 [1] 2 _ _ rfl (by simp) rfl (Or.inl rfl) hch
  exact ⟨h.1, h.2.1⟩

/-- A single self-referential PAGE, for the C6 witness. -/
def cyclicDoc : Doc Nat := [{ id := 1, type := .PAGE, children := [1] }]

/-- Concrete instance of claim C6: the self-referential page makes
`transform` fail with an InvariantViolation. -/
theorem c6_cycle_and_root_guard_witness :
    ∃ e, transform cyclicDoc ({} : Config) 1 = .error e := by
  apply c6_cycle_and_root_guard
  right
  exact ⟨1, _, 1, reaches_refl _ 1, rfl, by simp [recChildren], reaches_refl _ 1⟩

/-- A childless PAGE, for part (a) of the C7 witness. -/
def pdoc0 : Doc Nat := [{ id := 1, type := .PAGE }]

/-- A TABLE declaring 2 rows by 2 columns but supplying only 3 cells, for
part (b) of the C7 witness. -/
def tdoc : Doc Nat := [
  { id := 2, type := .TABLE, children := [3, 4, 5], rowsCount := some 2,
    columnsCount := some 2 },
  { id := 3, type := .CELL },
  { id := 4, type := .CELL },
  { id := 5, type := .CELL }]

/-- Concrete instance of claim C7: a well-tagged acyclic document converts
without error, and the 2-by-2 table with 3 cells yields a 2-row table whose
missing fourth cell is an empty cell. -/
theorem c7_malformed_no_throw_witness :
    (∃ res, transform pdoc0 ({} : Config) 1 = .ok res) ∧
    transformOne tdoc ({} : Config) [] 2 =
      .ok ⟨[.table (buildRows 2 2 [[], [], []])], [], [], [2, 3, 4, 5]⟩ ∧
    (buildRows 2 2 ([[], [], []] : List (List (AstNode Nat)))).length = 2 ∧
    (∃ row, (buildRows 2 2 ([[], [], []] :
        List (List (AstNode Nat)))).getD 1 (.tableRow []) = .tableRow row ∧
      row.getD 1 (.tableCell []) = AstNode.tableCell ([] : List (AstNode Nat))) := by
  have hacyc : ∀ l, VChain pdoc0 1 l → ((1 : Nat) :: l).Nodup := by
    intro l hl
    cases hl with
    | nil => simp
    | cons blk h1 h2 h3 =>
      exfalso
      have hfind : lookupDoc pdoc0 1 = some { id := 1, type := .PAGE } := rfl
      rw [h1] at hfind
      injection hfind with hfind
      rw [hfind] at h2
      simp [recChildren] at h2
  have ha := (c7_malformed_no_throw pdoc0 ({} : Config)).1 1 _ rfl rfl hacyc
  have hch : transformMany tdoc ({} : Config) (2 :: []) [3, 4, 5] =
      .ok ⟨[[], [], []], [], [], [3, 4, 5]⟩ := by
    simp [transformMany, lookupDoc, List.find?, recChildren, buildNode, mergeRefs,
      refAbsent]
  have hb := (c7_malformed_no_throw tdoc ({} : Config)).2 [] 2 _ _ (by simp) rfl rfl hch
  exact ⟨ha, hb.1, hb.2.1, hb.2.2 1 1 (by decide) (by decide) (by decide)⟩

/-- The Configuration with `file` enabled, for the C8 witness. -/
def cfgF : Config := { file := true }

/-- An IMAGE block and a FILE block with concrete accessor handles, for the
C8 witness. -/
def c8doc : Doc Nat := [
  { id := 1, type := .IMAGE, token := some "t".toList, fetchSources := some 5,
    fetchBlob := some 6 },
  { id := 2, type := .FILE, fetchBlob := some 9 }]

/-- Concrete instance of claim C8: the IMAGE and FILE nodes and side entries
carry exactly the blocks' accessor handles, and mapping the handles through
a function commutes with the transformation. -/
theorem c8_accessors_threaded_witness :
    transformOne c8doc cfgF [] 1 =
      .ok ⟨[.image none (some "t".toList) (some 5) (some 6)],
           [⟨1, none, some "t".toList, some 5, some 6⟩], [], [1]⟩ ∧
    transformOne c8doc cfgF [] 2 =
      .ok ⟨[.file none none none (some 9)], [],
           [⟨2, none, none, none, some 9⟩], [2]⟩ ∧
    transformMany (mapDoc Nat.succ c8doc) cfgF [] [1] =
      Except.map (mapRes Nat.succ) (transformMany c8doc cfgF [] [1]) := by
  have h := c8_accessors_threaded c8doc cfgF Nat.succ
  exact ⟨h.1 [] 1 _ (by simp) rfl rfl, h.2.1 [] 2 _ (by simp) rfl rfl rfl, h.2.2 [] [1]⟩

end Lark
